import Mathlib

/-!
Verification of the properties/getopt library: a shallow embedding of the
Go source (package properties and package getopt) into Lean, followed by
theorems settling the specification claims.

Go byte strings are modelled as `List Nat` (each element a byte value),
Go runes as `Int` (Go's rune is int32), and Go panics as `Option.none`
results.  All definitions are translated directly from the source files.
-/

namespace Props

/-- Go `utf8.RuneError` (U+FFFD). -/
def runeError : Int := 0xFFFD

/-- Embedding of Go `utf8.DecodeRune`: decodes the first rune of a byte
sequence, returning the rune and its size in bytes; invalid or truncated
encodings yield `(RuneError, 1)` and the empty input `(RuneError, 0)`. -/
def utf8DecodeRune (p : List Nat) : Int × Nat :=
  match p with
  | [] => (runeError, 0)
  | b0 :: rest =>
    if b0 < 0x80 then (Int.ofNat b0, 1)
    else if 0xC2 ≤ b0 && b0 ≤ 0xDF then
      match rest with
      | b1 :: _ =>
        if 0x80 ≤ b1 && b1 ≤ 0xBF then
          (Int.ofNat ((b0 % 0x20) * 0x40 + b1 % 0x40), 2)
        else (runeError, 1)
      | [] => (runeError, 1)
    else if 0xE0 ≤ b0 && b0 ≤ 0xEF then
      match rest with
      | b1 :: b2 :: _ =>
        let lo1 := if b0 = 0xE0 then 0xA0 else 0x80
        let hi1 := if b0 = 0xED then 0x9F else 0xBF
        if lo1 ≤ b1 && b1 ≤ hi1 && 0x80 ≤ b2 && b2 ≤ 0xBF then
          (Int.ofNat ((b0 % 0x10) * 0x1000 + (b1 % 0x40) * 0x40 + b2 % 0x40), 3)
        else (runeError, 1)
      | _ => (runeError, 1)
    else if 0xF0 ≤ b0 && b0 ≤ 0xF4 then
      match rest with
      | b1 :: b2 :: b3 :: _ =>
        let lo1 := if b0 = 0xF0 then 0x90 else 0x80
        let hi1 := if b0 = 0xF4 then 0x8F else 0xBF
        if lo1 ≤ b1 && b1 ≤ hi1 && 0x80 ≤ b2 && b2 ≤ 0xBF && 0x80 ≤ b3 && b3 ≤ 0xBF then
          (Int.ofNat ((b0 % 8) * 0x40000 + (b1 % 0x40) * 0x1000 + (b2 % 0x40) * 0x40 + b3 % 0x40), 4)
        else (runeError, 1)
      | _ => (runeError, 1)
    else (runeError, 1)

/-- Embedding of Go `utf8.EncodeRune` (the bytes it writes): surrogates,
negative and out-of-range runes encode the replacement character. -/
def utf8EncodeRune (r : Int) : List Nat :=
  if 0 ≤ r && r < 0x80 then [r.toNat]
  else if 0 ≤ r && r < 0x800 then
    [0xC0 + r.toNat / 0x40, 0x80 + r.toNat % 0x40]
  else if r < 0 || r > 0x10FFFF || (0xD800 ≤ r && r ≤ 0xDFFF) then
    [0xEF, 0xBF, 0xBD]
  else if r < 0x10000 then
    [0xE0 + r.toNat / 0x1000, 0x80 + r.toNat / 0x40 % 0x40, 0x80 + r.toNat % 0x40]
  else
    [0xF0 + r.toNat / 0x40000, 0x80 + r.toNat / 0x1000 % 0x40,
     0x80 + r.toNat / 0x40 % 0x40, 0x80 + r.toNat % 0x40]

/-- Embedding of Go `utf16.IsSurrogate`. -/
def utf16IsSurrogate (r : Int) : Bool := 0xD800 ≤ r && r < 0xE000

/-- Embedding of Go `utf16.DecodeRune`: combines a surrogate pair, or
returns the replacement character if the pair is invalid. -/
def utf16DecodeRune (r1 r2 : Int) : Int :=
  if 0xD800 ≤ r1 && r1 < 0xDC00 && 0xDC00 ≤ r2 && r2 < 0xE000 then
    (r1 - 0xD800) * 0x400 + (r2 - 0xDC00) + 0x10000
  else runeError

/-- Embedding of Go `utf16.EncodeRune`: splits a rune above U+FFFF into its
surrogate halves; out-of-range input yields two replacement characters. -/
def utf16EncodeRune (r : Int) : Int × Int :=
  if r < 0x10000 || r > 0x10FFFF then (runeError, runeError)
  else (0xD800 + (r - 0x10000) / 0x400, 0xDC00 + (r - 0x10000) % 0x400)

/-- The lowercase hex digit byte written by `escapeRune` for a nibble. -/
def hexDigitGo (b : Nat) : Nat := if b > 9 then b + 87 else b + 48

/-- The four hex-digit bytes of a 16-bit value, as written by the loop in
`escapeRune` (positions 2..5 of the buffer, most significant first). -/
def hex4 (v : Nat) : List Nat :=
  [hexDigitGo (v / 0x1000 % 16), hexDigitGo (v / 0x100 % 16),
   hexDigitGo (v / 16 % 16), hexDigitGo (v % 16)]

/-- Embedding of `escapeRune` (part_001 lines 20-44), returning the bytes
written: nothing for printable ASCII, one lowercase zero-padded six-byte
sequence otherwise, and for runes above 0xFFFF the two surrogate
sequences. -/
def escapeRune (r : Int) : List Nat :=
  if r > 0xFFFF then
    escapeRune (utf16EncodeRune r).1 ++ escapeRune (utf16EncodeRune r).2
  else if 0x20 ≤ r && r ≤ 0x7E then []
  else
    [92, 117] ++ hex4 (if r < 0 then runeError else r).toNat
termination_by r.toNat
decreasing_by
  all_goals
    simp only [utf16EncodeRune, runeError]
    split <;> omega

/-- The value of a hex digit byte, or `none` (the `else` break in the
`unescapeRune` digit loop). -/
def hexVal (b : Nat) : Option Nat :=
  if 48 ≤ b && b ≤ 57 then some (b - 48)
  else if 97 ≤ b && b ≤ 102 then some (b - 97 + 10)
  else if 65 ≤ b && b ≤ 70 then some (b - 65 + 10)
  else none

/-- The hex-digit loop of `unescapeRune`: folds the leading hex digits of
the window into a value, returning the value accumulated so far and the
number of digit bytes consumed (it stops at the first non-digit). -/
def hexScan (r : Nat) : List Nat → Nat × Nat
  | [] => (r, 0)
  | b :: bs =>
    match hexVal b with
    | none => (r, 0)
    | some d =>
      let vk := hexScan (r * 16 + d) bs
      (vk.1, vk.2 + 1)

/-- Embedding of `unescapeRune` (part_001 lines 52-105).  It parses the
first escape sequence of `p`, returning the rune and the number of bytes
consumed; `(RuneError, 0)` if `p` does not start with a backslash.  The
`\uxxxx` digit loop runs over indices `2 ≤ i < min (len p) 6` and on a
non-digit sets `n := i` (here: `2 + k` for `k` consumed digits), otherwise
leaves `n = min (len p) 6`. -/
def unescapeRune (p : List Nat) : Int × Nat :=
  match p with
  | [] => (runeError, 0)
  | b0 :: rest =>
    if b0 ≠ 92 then (runeError, 0)
    else
      let ds := utf8DecodeRune rest
      if ds.1 = 116 then (9, 2)
      else if ds.1 = 110 then (10, 2)
      else if ds.1 = 102 then (12, 2)
      else if ds.1 = 114 then (13, 2)
      else if ds.1 ≠ 117 then (ds.1, ds.2 + 1)
      else
        let m := min (rest.length + 1) 6
        let vk := hexScan 0 ((rest.drop 1).take (m - 2))
        let n := if vk.2 < m - 2 then 2 + vk.2 else m
        let r1 : Int := if n < 6 then runeError else Int.ofNat vk.1
        if utf16IsSurrogate r1 then
          -- the recursive call on p[6:]
          let rs := unescapeRune (rest.drop 5)
          if rs.2 ≠ 6 || !utf16IsSurrogate rs.1 then (runeError, 6)
          else (utf16DecodeRune r1 rs.1, 12)
        else (r1, n)
termination_by p.length
decreasing_by
  simp only [List.length_cons, List.length_drop]
  omega

/-- `isSpace` from part_001: `'\t'`, `'\f'` and `' '`. -/
def isSpace (r : Int) : Bool := r = 9 || r = 12 || r = 32

/-- `isDelimiter` from part_001: `'='` and `':'`. -/
def isDelimiter (r : Int) : Bool := r = 61 || r = 58

/-- `isCommentPrefix` from part_001: `'#'` and `'!'`. -/
def isCommentPre (r : Int) : Bool := r = 35 || r = 33

/-- `utf8.DecodeRune` consumes at least one byte of a nonempty input. -/
theorem utf8DecodeRune_size_pos (b : Nat) (rest : List Nat) :
    1 ≤ (utf8DecodeRune (b :: rest)).2 := by
  unfold utf8DecodeRune
  repeat' split
  all_goals try simp_all
  all_goals (split <;> simp_all)

/-- Dropping the bytes of a decoded rune shortens the list. -/
theorem drop_decode_lt (b : Nat) (rest : List Nat) :
    ((b :: rest).drop (utf8DecodeRune (b :: rest)).2).length <
      (b :: rest).length := by
  have := utf8DecodeRune_size_pos b rest
  simp only [List.length_cons, List.length_drop]
  omega

/-- Dropping a positive count shortens a nonempty list. -/
theorem drop_pos_lt (k b : Nat) (rest : List Nat) (hk : k ≠ 0) :
    ((b :: rest).drop k).length < (b :: rest).length := by
  simp only [List.length_cons, List.length_drop]
  omega

/-- The rune sequence of a Go string (the runes produced by `range` over a
string, i.e. repeated `utf8.DecodeRune` on the remaining bytes). -/
def stringRunes (s : List Nat) : List Int :=
  match s with
  | [] => []
  | b :: rest =>
    (utf8DecodeRune (b :: rest)).1 ::
      stringRunes ((b :: rest).drop (utf8DecodeRune (b :: rest)).2)
termination_by s.length
decreasing_by
  exact drop_decode_lt _ _

/-- The inner skip loop of `unescape` (part_001 lines 137-144), entered
after an unescaped whitespace/delimiter was consumed while splitting.  It
consumes the whitespace/delimiter run; on reaching a byte that is neither,
it returns the string built so far and the current offset.  If the input
runs out, control falls back to `b.WriteRune(r); p = p[size:]` in the
source with `p` empty and `size ≥ 1`, and the slice expression `p[size:]`
panics: modelled as `none`. -/
def skipRun (p : List Nat) (n : Nat) (acc : List Nat) :
    Option (List Nat × Nat) :=
  match p with
  | [] => none
  | b :: rest =>
    let ds := utf8DecodeRune (b :: rest)
    if !(isSpace ds.1 || isDelimiter ds.1) then some (acc, n)
    else skipRun ((b :: rest).drop ds.2) (n + ds.2) acc
termination_by p.length
decreasing_by
  exact drop_decode_lt _ _

/-- The main loop of `unescape` (part_001 lines 127-152), carrying the
accumulated output bytes (`strings.Builder`) and the offset `n`. -/
def unescapeGo (split : Bool) (p : List Nat) (acc : List Nat) (n : Nat) :
    Option (List Nat × Nat) :=
  match p with
  | [] => some (acc, n)
  | b :: rest =>
    let es := unescapeRune (b :: rest)
    if h : es.2 = 0 then
      let ds := utf8DecodeRune (b :: rest)
      if split && (isSpace ds.1 || isDelimiter ds.1) then
        skipRun ((b :: rest).drop ds.2) (n + ds.2) acc
      else
        unescapeGo split ((b :: rest).drop ds.2) (acc ++ utf8EncodeRune ds.1)
          (n + ds.2)
    else
      unescapeGo split ((b :: rest).drop es.2) (acc ++ utf8EncodeRune es.1)
        (n + es.2)
termination_by p.length
decreasing_by
  · exact drop_decode_lt _ _
  · exact drop_pos_lt _ _ _ h

/-- Embedding of `unescape` (part_001 lines 127-152): decodes the escape
sequences of `p`; with `split = true` it stops at the first unescaped
whitespace/delimiter run, consumes the run, and returns the text so far
with the offset where the value begins.  `none` models the panic hit when
the run extends to the end of the input. -/
def unescape (p : List Nat) (split : Bool) : Option (List Nat × Nat) :=
  unescapeGo split p [] 0

/-! ### The natural-line reader (`loadBytes`)

The byte stream is the remaining list of bytes; `ReadByte` on an empty
list is the end-of-file error (the only read error a string reader can
produce), and `UnreadByte` leaves the byte in the remaining list. -/

/-- The whitespace-skipping read at the top of the `loadBytes` outer loop
(part_001 lines 158-167): returns the first byte that is not space, tab or
form-feed together with the remaining stream, or `none` at end-of-file. -/
def skipWs : List Nat → Option (Nat × List Nat)
  | [] => none
  | x :: s => if x = 9 || x = 12 || x = 32 then skipWs s else some (x, s)

/-- The inner copy loop of `loadBytes` (part_001 lines 171-183): starting
from the byte `x` already read, append bytes to `b` until an end-of-line
byte or end-of-file, toggling `esc` on backslashes and clearing it
otherwise.  Returns the new accumulator, the final `esc`, and either the
end-of-line byte with the remaining stream or `none` for end-of-file. -/
def scanBody (x : Nat) (s : List Nat) (b : List Nat) (esc : Bool) :
    List Nat × Bool × Option (Nat × List Nat) :=
  if x = 10 || x = 13 then (b, esc, some (x, s))
  else
    let e2 := if x = 92 then !esc else false
    match s with
    | [] => (b ++ [x], e2, none)
    | y :: s2 => scanBody y s2 (b ++ [x]) e2

/-- The carriage-return handling of `loadBytes` (part_001 lines 184-195):
after a `'\r'`, read one byte; consume it if it is `'\n'`, otherwise
unread it.  `none` is the end-of-file return. -/
def crHandle (eol : Nat) (s2 : List Nat) : Option (List Nat) :=
  if eol = 13 then
    match s2 with
    | [] => none
    | y :: s3 => some (if y = 10 then s3 else y :: s3)
  else some s2

theorem skipWs_length {s : List Nat} {x : Nat} {s1 : List Nat}
    (h : skipWs s = some (x, s1)) : s1.length < s.length := by
  induction s with
  | nil => simp [skipWs] at h
  | cons a as ih =>
    by_cases ha : a = 9 || a = 12 || a = 32
    · simp [skipWs, ha] at h
      have := ih h
      simpa using Nat.lt_succ_of_lt this
    · simp [skipWs, ha] at h
      obtain ⟨h1, h2⟩ := h
      simp [← h2]

theorem scanBody_rest_length :
    ∀ (s : List Nat) (x : Nat) (b : List Nat) (esc : Bool) (e : Nat)
      (r : List Nat), (scanBody x s b esc).2.2 = some (e, r) →
      r.length ≤ s.length := by
  intro s
  induction s with
  | nil =>
    intro x b esc e r h
    by_cases hx : x = 10 || x = 13 <;> simp [scanBody, hx] at h
    simp [h.2]
  | cons y s2 ih =>
    intro x b esc e r h
    by_cases hx : x = 10 || x = 13
    · simp [scanBody, hx] at h
      obtain ⟨-, h2⟩ := h
      simp [← h2]
    · rw [scanBody] at h
      simp only [hx, Bool.false_eq_true, if_false] at h
      have := ih y (b ++ [x]) _ e r h
      simpa using Nat.le_succ_of_le this

theorem crHandle_length {eol : Nat} {s2 s3 : List Nat}
    (h : crHandle eol s2 = some s3) : s3.length ≤ s2.length := by
  by_cases he : eol = 13
  · cases s2 with
    | nil => simp [crHandle, he] at h
    | cons y r =>
      simp [crHandle, he] at h
      by_cases hy : y = 10 <;> simp [hy] at h <;> simp [← h] <;> omega
  · simp [crHandle, he] at h
    simp [← h]

/-- Embedding of `loadBytes` (part_001 lines 154-205): reads one logical
line into `b`.  Returns the accumulated bytes, whether the end-of-file
error was returned, and the remaining stream. -/
def loadBytesGo (s : List Nat) (b : List Nat) : List Nat × Bool × List Nat :=
  match h1 : skipWs s with
  | none => (b, true, [])
  | some (x, s1) =>
    let done := (x = 35 || x = 33) && b.isEmpty
    match h2 : scanBody x s1 b false with
    | (b2, _, none) => (b2, true, [])
    | (b2, esc, some (eol, s2)) =>
      match h3 : crHandle eol s2 with
      | none => (b2, true, [])
      | some s3 =>
        if done then (b2, false, s3)
        else if esc then loadBytesGo s3 b2.dropLast
        else (b2, false, s3)
termination_by s.length
decreasing_by
  have hlt := skipWs_length h1
  have hle := scanBody_rest_length s1 x b false eol s2 (by rw [h2])
  have hcr := crHandle_length h3
  omega

theorem loadBytesGo_progress (s : List Nat) (b : List Nat)
    (h : (loadBytesGo s b).2.1 = false) :
    (loadBytesGo s b).2.2.length < s.length := by
  induction s, b using loadBytesGo.induct with
  | case1 s b h1 =>
    rw [loadBytesGo, h1] at h
    dsimp only at h
    simp at h
  | case2 s b x s1 h1 b2 fst h2 =>
    rw [loadBytesGo] at h
    rw [h1] at h
    dsimp only at h
    rw [h2] at h
    dsimp only at h
    simp at h
  | case3 s b x s1 h1 b2 esc eol s2 h2 h3 =>
    rw [loadBytesGo] at h
    rw [h1] at h
    dsimp only at h
    rw [h2] at h
    dsimp only at h
    rw [h3] at h
    dsimp only at h
    simp at h
  | case4 s b x s1 h1 dn b2 esc eol s2 h2 s3 h3 hd =>
    rw [loadBytesGo]
    rw [h1]
    dsimp only
    rw [h2]
    dsimp only
    rw [h3]
    dsimp only
    have hlt := skipWs_length h1
    have hle := scanBody_rest_length s1 x b false eol s2 (by rw [h2])
    have hcr := crHandle_length h3
    have hd2 : ((decide (x = 35) || decide (x = 33)) && b.isEmpty) = true := hd
    rw [if_pos hd2]
    simp
    omega
  | case5 s b x s1 h1 dn b2 eol s2 s3 h3 hd h2 ih =>
    rw [loadBytesGo] at h ⊢
    rw [h1] at h ⊢
    dsimp only at h ⊢
    rw [h2] at h ⊢
    dsimp only at h ⊢
    rw [h3] at h ⊢
    dsimp only at h ⊢
    have hlt := skipWs_length h1
    have hle := scanBody_rest_length s1 x b false eol s2 (by rw [h2])
    have hcr := crHandle_length h3
    have hd2 : ¬ ((decide (x = 35) || decide (x = 33)) && b.isEmpty) = true := hd
    rw [if_neg hd2, if_pos rfl] at h ⊢
    have := ih h
    omega
  | case6 s b x s1 h1 dn b2 esc eol s2 h2 s3 h3 hd he =>
    rw [loadBytesGo]
    rw [h1]
    dsimp only
    rw [h2]
    dsimp only
    rw [h3]
    dsimp only
    have hlt := skipWs_length h1
    have hle := scanBody_rest_length s1 x b false eol s2 (by rw [h2])
    have hcr := crHandle_length h3
    have hd2 : ¬ ((decide (x = 35) || decide (x = 33)) && b.isEmpty) = true := hd
    rw [if_neg hd2, if_neg he]
    simp
    omega

/-! ### `Table.Load` and the table operations -/

/-- A Go map assignment `m[key] = value` on an association list. -/
def upsert (m : List (List Nat × List Nat)) (k v : List Nat) :
    List (List Nat × List Nat) :=
  match m with
  | [] => [(k, v)]
  | (k1, v1) :: rest =>
    if k1 = k then (k1, v) :: rest else (k1, v1) :: upsert rest k v

/-- Embedding of the loop of `Table.Load` (part_001 lines 287-301) reading
from a string (so the only read error is end-of-file): repeatedly read a
logical line, and unless it is empty or a comment, split and unescape it
and store the pair.  `none` models a panic inside `unescape`. -/
def loadGo (s : List Nat) (acc : List (List Nat × List Nat)) :
    Option (List (List Nat × List Nat)) :=
  match hl : loadBytesGo s [] with
  | (b, eof, rest) =>
    let step : Option (List (List Nat × List Nat)) :=
      if b ≠ [] ∧ b.headD 0 ≠ 35 ∧ b.headD 0 ≠ 33 then
        match unescape b true with
        | none => none
        | some (key, i) =>
          match unescape (b.drop i) false with
          | none => none
          | some (value, _) => some (upsert acc key value)
      else some acc
    match step with
    | none => none
    | some acc2 => if he : eof then some acc2 else loadGo rest acc2
termination_by s.length
decreasing_by
  have := loadBytesGo_progress s []
  rw [hl] at this
  simp only [Bool.not_eq_true] at he
  exact this (by simp [he])

/-- `Table.Load`/`LoadString` on an initially empty table: the resulting
key-value pairs, or `none` if loading panics. -/
def loadStr (s : List Nat) : Option (List (List Nat × List Nat)) :=
  loadGo s []

/-- The bytes of a Lean string literal under UTF-8, used to write concrete
test inputs. -/
def strBytes (s : String) : List Nat :=
  s.data.flatMap (fun c => utf8EncodeRune (Int.ofNat c.toNat))

/-! ### The serializer (`escape`, `escapeComment`, `Store`, `Save`) -/

/-- The body of the key loop of `escape` (part_001 lines 317-337): the
bytes written for one key rune. -/
def escapeOneKey (ascii : Bool) (r : Int) : List Nat :=
  let e := if ascii then escapeRune r else []
  if e.length ≠ 0 then e
  else if r = 10 then [92, 110]
  else if r = 13 then [92, 114]
  else if isSpace r || isDelimiter r || isCommentPre r then
    92 :: utf8EncodeRune r
  else utf8EncodeRune r

/-- The body of the value loop of `escape` (part_001 lines 343-363): the
bytes written for one value rune (only comment-prefix runes get a
backslash). -/
def escapeOneVal (ascii : Bool) (r : Int) : List Nat :=
  let e := if ascii then escapeRune r else []
  if e.length ≠ 0 then e
  else if r = 10 then [92, 110]
  else if r = 13 then [92, 114]
  else if isCommentPre r then 92 :: utf8EncodeRune r
  else utf8EncodeRune r

/-- Embedding of `escape` (part_001 lines 313-365): escaped key, `'='`, a
backslash if the first value rune is whitespace or a delimiter, then the
escaped value. -/
def escape (key value : List Nat) (ascii : Bool) : List Nat :=
  ((stringRunes key).flatMap (escapeOneKey ascii))
    ++ [61]
    ++ (if isSpace (utf8DecodeRune value).1 || isDelimiter (utf8DecodeRune value).1
        then [92] else [])
    ++ ((stringRunes value).flatMap (escapeOneVal ascii))

/-- The loop of `escapeComment` (part_001 lines 370-389), carrying the
previous rune `last` (initially `'\n'`): end-of-line runes are written
through unchanged; any other rune is preceded by `'#'` when it follows an
end-of-line rune and is not already a comment prefix, then written
ascii-escaped or raw. -/
def escapeCommentGo (ascii : Bool) : List Int → Int → List Nat
  | [], _ => []
  | r :: rs, last =>
    if r = 10 || r = 13 then utf8EncodeRune r ++ escapeCommentGo ascii rs r
    else
      (if (last = 10 || last = 13) && !isCommentPre r then [35] else [])
        ++ (let e := if ascii then escapeRune r else []
            if e.length ≠ 0 then e else utf8EncodeRune r)
        ++ escapeCommentGo ascii rs r

/-- Embedding of `escapeComment` (part_001 lines 367-391). -/
def escapeComment (text : List Nat) (ascii : Bool) : List Nat :=
  escapeCommentGo ascii (stringRunes text) 10

/-- Embedding of `Table.Store` (part_001 lines 408-421) writing to a
string: one escaped pair per line, each followed by `'\n'`. -/
def store (data : List (List Nat × List Nat)) (ascii : Bool) : List Nat :=
  data.flatMap (fun kv => escape kv.1 kv.2 ascii ++ [10])

/-- Embedding of `Table.Save` (part_001 lines 433-442): the escaped
comments, a `'\n'`, then the stored pairs. -/
def save (data : List (List Nat × List Nat)) (comments : List Nat)
    (ascii : Bool) : List Nat :=
  escapeComment comments ascii ++ [10] ++ store data ascii

/-! ### Tables with a defaults chain -/

/-- A property `Table` (part_001 lines 212-215): the local key-value map
and the optional `defaults` table. -/
inductive GoTable where
  | mk : List (List Nat × List Nat) → Option GoTable → GoTable

/-- The local map of a table. -/
def GoTable.data : GoTable → List (List Nat × List Nat)
  | .mk d _ => d

/-- The defaults pointer of a table. -/
def GoTable.defaults : GoTable → Option GoTable
  | .mk _ df => df

/-- Embedding of `Table.Set` (part_001 lines 512-517). -/
def tableSet (t : GoTable) (k v : List Nat) : GoTable :=
  .mk (upsert t.data k v) t.defaults

/-- Embedding of `Table.Delete` (part_001 lines 521-523). -/
def tableDelete (t : GoTable) (k : List Nat) : GoTable :=
  .mk (t.data.filter (fun kv => kv.1 ≠ k)) t.defaults

/-- Embedding of `Table.Clear` (part_001 lines 527-529). -/
def tableClear (t : GoTable) : GoTable :=
  .mk [] t.defaults

/-- Embedding of `Table.ClearAll` (part_001 lines 533-538). -/
def tableClearAll : GoTable → GoTable
  | .mk _ none => .mk [] none
  | .mk _ (some df) => .mk [] (some (tableClearAll df))

/-- Embedding of `Table.Lookup` (part_001 lines 490-500). -/
def tableLookup : GoTable → List Nat → Option (List Nat)
  | .mk d df, k =>
    match d.lookup k with
    | some v => some v
    | none =>
      match df with
      | some t => tableLookup t k
      | none => none

/-- The local maps of all the tables strictly below a table in its
defaults chain. -/
def chainData : Option GoTable → List (List (List Nat × List Nat))
  | none => []
  | some (.mk d df) => d :: chainData df

/-! ### The two getopt parsers

`src/getopt/getopt.go` defines `Parser.Next`; `src/unnamed/part_002`
defines the same parser with an extra `done` flag and the method renamed
`Option`.  Argument strings are byte lists; the error result is `ok`
(nil), `errOption` or `errNoArg`; `EndOption` is the rune -1. -/

/-- The result of one getopt call: `nil`, `ErrOption` or `ErrNoArg`. -/
inductive GetoptErr where
  | ok : GetoptErr
  | errOption : GetoptErr
  | errNoArg : GetoptErr
deriving DecidableEq

/-- The `Parser` of src/getopt/getopt.go (no `done` field). -/
structure GetoptState where
  args : List (List Nat)
  optIndex : Nat
  optPos : Nat
  opts : List Nat
  hasArg : Bool
deriving DecidableEq

/-- The `Parser` of part_002, with the extra `done` field. -/
structure GetoptState2 where
  args : List (List Nat)
  optIndex : Nat
  optPos : Nat
  opts : List Nat
  hasArg : Bool
  done : Bool
deriving DecidableEq

/-- `strings.IndexByte`: index of the first occurrence, or `none`. -/
def indexByte (s : List Nat) (b : Nat) : Option Nat :=
  match s with
  | [] => none
  | c :: rest =>
    if c = b then some 0
    else match indexByte rest b with
         | some i => some (i + 1)
         | none => none

/-- `NewParser` of src/getopt/getopt.go. -/
def newParser (args : List (List Nat)) (opts : List Nat) : GetoptState :=
  ⟨args, 1, 0, opts, false⟩

/-- `NewParser` of part_002. -/
def newParser2 (args : List (List Nat)) (opts : List Nat) : GetoptState2 :=
  ⟨args, 1, 0, opts, false, false⟩

/-- `Parser.Args` of src/getopt/getopt.go. -/
def parserArgs (p : GetoptState) : List (List Nat) :=
  p.args.drop (if p.hasArg then p.optIndex + 1 else p.optIndex)

/-- `Parser.Args` of part_002 (same code). -/
def parserArgs2 (p : GetoptState2) : List (List Nat) :=
  p.args.drop (if p.hasArg then p.optIndex + 1 else p.optIndex)

/-- The shared tail of `Next`/`Option` (getopt.go lines 55-75, part_002
lines 80-100): read the byte at `optPos`, advance, validate it against the
option string, and flag a pending option argument. -/
def parserCore (args : List (List Nat)) (optIndex optPos : Nat)
    (opts : List Nat) : (Int × GetoptErr) × Nat × Nat × Bool :=
  let s := args.getD optIndex []
  let b := s.getD optPos 0
  let pos2 := optPos + 1
  let st : Nat × Nat :=
    if pos2 ≥ s.length then (optIndex + 1, 0) else (optIndex, pos2)
  if b ≤ 0x20 || b = 58 || b = 45 || b ≥ 0x7F then
    ((Int.ofNat b, .errOption), st.1, st.2, false)
  else
    match indexByte opts b with
    | none => ((Int.ofNat b, .errOption), st.1, st.2, false)
    | some i =>
      if i + 1 < opts.length ∧ opts.getD (i + 1) 0 = 58 then
        if st.1 ≥ args.length then ((Int.ofNat b, .errNoArg), st.1, st.2, false)
        else ((Int.ofNat b, .ok), st.1, st.2, true)
      else ((Int.ofNat b, .ok), st.1, st.2, false)

/-- Embedding of `Parser.Next` (src/getopt/getopt.go lines 34-76),
returning the result and the updated parser. -/
def parserNext (p : GetoptState) : (Int × GetoptErr) × GetoptState :=
  let p1 : GetoptState :=
    if p.hasArg then { p with optIndex := p.optIndex + 1, optPos := 0, hasArg := false }
    else p
  if p1.optIndex ≥ p1.args.length then ((-1, .ok), p1)
  else if p1.optPos = 0 then
    let s := p1.args.getD p1.optIndex []
    if s.length ≤ 1 || s.headD 0 ≠ 45 then ((-1, .ok), p1)
    else if s.length = 2 ∧ s.getD 1 0 = 45 then
      ((-1, .ok), { p1 with optIndex := p1.optIndex + 1 })
    else
      let r := parserCore p1.args p1.optIndex 1 p1.opts
      (r.1, { p1 with optIndex := r.2.1, optPos := r.2.2.1, hasArg := r.2.2.2 })
  else
    let r := parserCore p1.args p1.optIndex p1.optPos p1.opts
    (r.1, { p1 with optIndex := r.2.1, optPos := r.2.2.1, hasArg := r.2.2.2 })

/-- Embedding of `Parser.Option` (part_002 lines 53-101): identical to
`Parser.Next` except that it returns immediately once `done` is set, and
sets `done` in each branch that returns `EndOption`. -/
def parserOption (p : GetoptState2) : (Int × GetoptErr) × GetoptState2 :=
  if p.done then ((-1, .ok), p)
  else
    let p1 : GetoptState2 :=
      if p.hasArg then { p with optIndex := p.optIndex + 1, optPos := 0, hasArg := false }
      else p
    if p1.optIndex ≥ p1.args.length then ((-1, .ok), { p1 with done := true })
    else if p1.optPos = 0 then
      let s := p1.args.getD p1.optIndex []
      if s.length ≤ 1 || s.headD 0 ≠ 45 then ((-1, .ok), { p1 with done := true })
      else if s.length = 2 ∧ s.getD 1 0 = 45 then
        ((-1, .ok), { p1 with optIndex := p1.optIndex + 1, done := true })
      else
        let r := parserCore p1.args p1.optIndex 1 p1.opts
        (r.1, { p1 with optIndex := r.2.1, optPos := r.2.2.1, hasArg := r.2.2.2 })
    else
      let r := parserCore p1.args p1.optIndex p1.optPos p1.opts
      (r.1, { p1 with optIndex := r.2.1, optPos := r.2.2.1, hasArg := r.2.2.2 })

/-! ### Auxiliary notions used in claim statements -/

/-- The number of leading valid hexadecimal digit bytes. -/
def leadingHexCount : List Nat → Nat
  | [] => 0
  | b :: bs =>
    match hexVal b with
    | some _ => leadingHexCount bs + 1
    | none => 0

/-- Whitespace bytes as used by the natural-line reader: space, tab and
form-feed. -/
def isWsByte (x : Nat) : Bool := x = 9 || x = 12 || x = 32

/-- The length of the trailing run of backslash bytes. -/
def trailingBackslashes (l : List Nat) : Nat :=
  (l.reverse.takeWhile (fun b => b = 92)).length

/-- The backslash-parity state of the line scanner after reading the bytes
of `l`, starting from state `e` (toggled by a backslash, cleared by any
other byte). -/
def escAfter (e : Bool) (l : List Nat) : Bool :=
  l.foldl (fun a c => if c = 92 then !a else false) e

/-- A byte string of ASCII bytes with no backslash. -/
def goodStr (s : List Nat) : Prop := ∀ b ∈ s, b < 128 ∧ b ≠ 92

/-- The bytes written for one non-end-of-line comment rune (ascii-escaped
or raw), shared by `escapeCommentGo` and the split-based description. -/
def commentBody (ascii : Bool) (r : Int) : List Nat :=
  let e := if ascii then escapeRune r else []
  if e.length ≠ 0 then e else utf8EncodeRune r

/-- A rune that is not an end-of-line rune. -/
def notEol (r : Int) : Bool := !(r = 10 || r = 13)

theorem dropWhile_length_le {α : Type} (p : α → Bool) (l : List α) :
    (l.dropWhile p).length ≤ l.length := by
  induction l with
  | nil => simp
  | cons a as ih =>
    by_cases h : p a
    · rw [List.dropWhile_cons, if_pos h]
      simp only [List.length_cons]
      omega
    · rw [List.dropWhile_cons, if_neg h]

/-- Split-based description of the comment writer: cut the rune sequence
into maximal end-of-line-free lines separated by single end-of-line runes
written through verbatim; a nonempty line whose first rune is not a
comment prefix is preceded by `'#'`. -/
def commentSpec (ascii : Bool) (rs : List Int) : List Nat :=
  (if (rs.takeWhile notEol) ≠ [] ∧ ¬isCommentPre ((rs.takeWhile notEol).headD 0)
   then [35] else [])
    ++ (rs.takeWhile notEol).flatMap (commentBody ascii)
    ++ (match h : rs.dropWhile notEol with
        | [] => []
        | e :: rest => utf8EncodeRune e ++ commentSpec ascii rest)
termination_by rs.length
decreasing_by
  have h1 : (rs.dropWhile notEol).length ≤ rs.length :=
    dropWhile_length_le _ _
  rw [h] at h1
  simp only [List.length_cons] at h1
  omega

theorem hexScan_snd (r : Nat) (l : List Nat) :
    (hexScan r l).2 = leadingHexCount l := by
  induction l generalizing r with
  | nil => rfl
  | cons b bs ih =>
    cases hv : hexVal b <;> simp [hexScan, leadingHexCount, hv, ih]

theorem leadingHexCount_le (l : List Nat) : leadingHexCount l ≤ l.length := by
  induction l with
  | nil => simp [leadingHexCount]
  | cons b bs ih =>
    cases hv : hexVal b <;> simp [leadingHexCount, hv] <;> omega

theorem leadingHexCount_take (l : List Nat) (n : Nat) :
    leadingHexCount (l.take n) = min (leadingHexCount l) n := by
  induction l generalizing n with
  | nil => simp [leadingHexCount]
  | cons b bs ih =>
    cases n with
    | zero => simp [leadingHexCount]
    | succ n =>
      cases hv : hexVal b <;>
        simp [List.take_succ_cons, leadingHexCount, hv, ih] <;> omega

/-! ### Claim theorems -/

/-- Claim C1: the claim (with the spec and the Go doc comment) says that
loading is total and that the line `key=` loads normally with the empty
value; in fact `unescape` panics on it.  After the split loop has consumed
the final `'='`, the input is exhausted, the inner skip loop exits, and
the fall-through `p = p[size:]` slices an empty slice with `size = 1`, an
out-of-range slice panic (modelled by `none`): loading the single line
`key=` crashes instead of producing the pair `("key", "")`. -/
theorem c1_load_key_eq_panics : loadStr (strBytes "key=") = none := by
  simp [loadStr, loadGo, loadBytesGo, skipWs, scanBody, crHandle, unescape,
    unescapeGo, unescapeRune, utf8DecodeRune, utf8EncodeRune, hexScan,
    hexVal, skipRun, upsert, strBytes, isSpace, isDelimiter, isCommentPre,
    utf16IsSurrogate, runeError]

/-- Claim C7: the line `fourth\ key\ : \ fourth value` loads to exactly
one pair, key `"fourth key "` (trailing space kept, escaped spaces and the
escaped delimiter included in the key) and value `" fourth value"`
(leading space preserved), the first unescaped whitespace/delimiter run
after the key being consumed and discarded. -/
theorem c7_fourth_key_line :
    loadStr (strBytes "fourth\\ key\\ : \\ fourth value") =
      some [(strBytes "fourth key ", strBytes " fourth value")] := by
  simp [loadStr, loadGo, loadBytesGo, skipWs, scanBody, crHandle, unescape,
    unescapeGo, unescapeRune, utf8DecodeRune, utf8EncodeRune, hexScan,
    hexVal, skipRun, upsert, strBytes, isSpace, isDelimiter, isCommentPre,
    utf16IsSurrogate, runeError]

/-- Claim C4: the claim says a `\uXXXX` surrogate half immediately
followed by the matching half decodes to the combined scalar with twelve
bytes consumed.  In the code the recursive call applied to the second
sequence itself runs the surrogate logic, so it can never return a bare
surrogate half with six bytes consumed, and the combining branch is
unreachable: even the valid pair `😀` yields the replacement
scalar with six bytes consumed. -/
theorem c4_surrogate_pair_never_combines :
    unescapeRune (strBytes "\\ud83d\\ude00") = (runeError, 6) ∧
      runeError ≠ (0x1F600 : Int) := by
  refine ⟨?_, by simp [runeError]⟩
  simp [unescapeRune, utf8DecodeRune, hexScan, hexVal, utf16IsSurrogate,
    strBytes, utf8EncodeRune, runeError]

/-- Claim C8: encoding works as claimed — the euro sign escapes to
`€` and U+1F600 to the surrogate pair `😀` — and `€`
decodes back to U+20AC over six bytes, but the surrogate-pair decode is
broken: `😀` decodes to the replacement scalar over six bytes
instead of the original scalar over twelve. -/
theorem c8_encode_decode_ascii_escapes :
    escapeRune 0x20AC = strBytes "\\u20ac" ∧
      unescapeRune (strBytes "\\u20ac") = (0x20AC, 6) ∧
      escapeRune 0x1F600 = strBytes "\\ud83d\\ude00" ∧
      unescapeRune (strBytes "\\ud83d\\ude00") = (runeError, 6) ∧
      runeError ≠ (0x1F600 : Int) := by
  refine ⟨?_, ?_, ?_, ?_, by simp [runeError]⟩ <;>
    simp [escapeRune, utf16EncodeRune, hex4, hexDigitGo, unescapeRune,
      utf8DecodeRune, hexScan, hexVal, utf16IsSurrogate, strBytes,
      utf8EncodeRune, runeError]

/-- Claim C3 counterexample: the claim says a truncated `\u` escape always
reports six bytes consumed; on `\u12x4` the code consumes only four bytes
(two prefix bytes plus the two valid digits). -/
theorem c3_counterexample_consumed_four :
    unescapeRune (strBytes "\\u12x4") = (runeError, 4) ∧ (4 : Nat) ≠ 6 := by
  refine ⟨?_, by simp⟩
  simp [unescapeRune, utf8DecodeRune, hexScan, hexVal, utf16IsSurrogate,
    strBytes, utf8EncodeRune, runeError]

/-- Claim C5 counterexample: the claim says every end-of-line sequence in
the comment text is normalized to a single `\n`; in fact `escapeComment`
writes end-of-line runes through verbatim, so `a\r\nb` keeps its `\r\n`
(as the repository's own `TestSaveString` expects) and the output still
contains a `\r` byte. -/
theorem c5_counterexample_no_normalization :
    escapeComment (strBytes "a\r\nb") false = strBytes "#a\r\n#b" ∧
      13 ∈ escapeComment (strBytes "a\r\nb") false := by
  have h : escapeComment (strBytes "a\r\nb") false = strBytes "#a\r\n#b" := by
    simp [escapeComment, escapeCommentGo, stringRunes, utf8DecodeRune,
      utf8EncodeRune, strBytes, isCommentPre, runeError]
  exact ⟨h, by rw [h]; simp [strBytes, utf8EncodeRune]⟩

/-- Claim C9: `Set`, `Delete` and `Clear` rebuild only the owning table's
local map; the data of every table in the defaults chain below it is
untouched. -/
theorem c9_set_delete_clear_frame (t : GoTable) (k v : List Nat) :
    chainData (tableSet t k v).defaults = chainData t.defaults ∧
      chainData (tableDelete t k).defaults = chainData t.defaults ∧
      chainData (tableClear t).defaults = chainData t.defaults := by
  cases t with
  | mk d df =>
    refine ⟨rfl, rfl, rfl⟩

/-- Claim C10 counterexample: on arguments `test -- -a` with option string
`a`, both parsers return the end sentinel once, but on the next call
`Parser.Next` (getopt.go) resumes parsing and returns option `'a'`, while
`Parser.Option` (part_002) has latched `done` and keeps returning the
sentinel: the two implementations do not agree over successive calls. -/
theorem c10_counterexample_after_ddash :
    (parserNext (parserNext (newParser
        [strBytes "test", strBytes "--", strBytes "-a"]
        (strBytes "a"))).2).1 = (97, .ok) ∧
      (parserOption (parserOption (newParser2
        [strBytes "test", strBytes "--", strBytes "-a"]
        (strBytes "a"))).2).1 = (-1, .ok) ∧
      ((97 : Int), GetoptErr.ok) ≠ ((-1 : Int), GetoptErr.ok) := by
  refine ⟨by decide, by decide, by decide⟩

/-- Claim C3 (amended): a `\u` escape followed by fewer than four valid
hexadecimal digits yields the replacement scalar, and the reported
consumption is `2 + d` for `d` leading valid digits (the offset of the
first invalid digit, or the end of the input), not always six. -/
theorem c3_truncated_unicode_consumption (rest : List Nat)
    (h : leadingHexCount rest < 4) :
    unescapeRune (92 :: 117 :: rest) = (runeError, 2 + leadingHexCount rest) := by
  have hdec : utf8DecodeRune (117 :: rest) = (117, 1) := by
    simp [utf8DecodeRune]
  have hle := leadingHexCount_le rest
  rw [unescapeRune]
  simp only [hdec, ne_eq, not_true_eq_false, if_false, reduceIte]
  norm_num
  rw [hexScan_snd, leadingHexCount_take]
  have hw : (if min (leadingHexCount rest) ((rest.length + 1 + 1) ⊓ 6 - 2) <
        (rest.length + 1 + 1) ⊓ 6 - 2 then
      2 + min (leadingHexCount rest) ((rest.length + 1 + 1) ⊓ 6 - 2)
    else (rest.length + 1 + 1) ⊓ 6) = 2 + leadingHexCount rest := by
    split <;> omega
  rw [hw]
  rw [if_pos (by omega : 2 + leadingHexCount rest < 6)]
  simp [utf16IsSurrogate, runeError]


/-- Witness for the amended C3 at the concrete input `\uzz`: two prefix
bytes, zero valid digits, two bytes consumed. -/
theorem c3_truncated_unicode_consumption_witness :
    leadingHexCount (strBytes "zz") < 4 ∧
      unescapeRune (92 :: 117 :: strBytes "zz") =
        (runeError, 2 + leadingHexCount (strBytes "zz")) :=
  ⟨by decide, c3_truncated_unicode_consumption _ (by decide)⟩

theorem skipWs_append (line tail : List Nat)
    (h : line.dropWhile isWsByte ≠ []) :
    skipWs (line ++ tail) =
      some ((line.dropWhile isWsByte).headD 0,
        (line.dropWhile isWsByte).tail ++ tail) := by
  induction line with
  | nil => simp at h
  | cons a as ih =>
    by_cases ha : isWsByte a
    · have hd : (a :: as).dropWhile isWsByte = as.dropWhile isWsByte := by
        simp [List.dropWhile_cons, ha]
      rw [hd] at h ⊢
      rw [List.cons_append, skipWs, if_pos (by simpa [isWsByte] using ha)]
      exact ih h
    · have hd : (a :: as).dropWhile isWsByte = a :: as := by
        simp [List.dropWhile_cons, ha]
      rw [hd]
      rw [List.cons_append, skipWs, if_neg (by simpa [isWsByte] using ha)]
      simp

theorem escAfter_cons (e : Bool) (c : Nat) (l : List Nat) :
    escAfter e (c :: l) = escAfter (if c = 92 then !e else false) l := rfl

theorem trailingBackslashes_append_one (l : List Nat) (x : Nat) :
    trailingBackslashes (l ++ [x]) =
      if x = 92 then trailingBackslashes l + 1 else 0 := by
  by_cases hx : x = 92 <;>
    simp [trailingBackslashes, List.reverse_append, List.takeWhile_cons, hx]

theorem escAfter_false_parity (l : List Nat) :
    escAfter false l = decide (trailingBackslashes l % 2 = 1) := by
  induction l using List.reverseRecOn with
  | nil => simp [escAfter, trailingBackslashes]
  | append_singleton l x ih =>
    rw [trailingBackslashes_append_one]
    unfold escAfter at ih ⊢
    rw [List.foldl_append]
    by_cases hx : x = 92
    · simp only [hx, List.foldl_cons, List.foldl_nil, if_pos rfl]
      rw [ih]
      rcases Nat.even_or_odd (trailingBackslashes l) with he | ho
      · have h1 : trailingBackslashes l % 2 = 0 := Nat.even_iff.mp he
        have h2 : (trailingBackslashes l + 1) % 2 = 1 := by omega
        simp [h1, h2]
      · have h1 : trailingBackslashes l % 2 = 1 := Nat.odd_iff.mp ho
        have h2 : (trailingBackslashes l + 1) % 2 = 0 := by omega
        simp [h1, h2]
    · simp [hx]

theorem scanBody_line (st : List Nat) (e : Nat) :
    ∀ (tail b : List Nat) (esc : Bool), st ≠ [] →
      (∀ c ∈ st, c ≠ 10 ∧ c ≠ 13) → (e = 10 ∨ e = 13) →
    scanBody (st.headD 0) (st.tail ++ e :: tail) b esc =
      (b ++ st, escAfter esc st, some (e, tail)) := by
  induction st with
  | nil => intro _ _ _ hne; simp at hne
  | cons x xs ih =>
    intro tail b esc _ hno he
    have hx := hno x (by simp)
    cases xs with
    | nil =>
      rw [List.headD_cons, List.tail_cons, List.nil_append, scanBody,
        if_neg (by simp [hx.1, hx.2])]
      dsimp only
      rw [scanBody, if_pos (by rcases he with h | h <;> simp [h])]
      simp [escAfter]
    | cons y ys =>
      rw [List.headD_cons, List.tail_cons, List.cons_append, scanBody,
        if_neg (by simp [hx.1, hx.2])]
      have := ih tail (b ++ [x]) (if x = 92 then !esc else false)
        (by simp) (fun c hc => hno c (by simp [hc])) he
      rw [List.headD_cons, List.tail_cons] at this
      dsimp only
      rw [this, escAfter_cons esc x (y :: ys), escAfter_cons _ y ys]
      simp

/-- Claim C6: one step of the natural-line reader.  A natural line whose
whitespace-stripped content `st` ends in an odd run of trailing
backslashes continues the logical line: exactly the final backslash and
the end-of-line bytes are dropped and reading proceeds into the following
natural line (whose own leading whitespace is skipped by the recursive
call) with `b ++ st.dropLast` accumulated; an even run (including zero)
terminates the logical line with the backslashes kept verbatim. -/
theorem c6_continuation_step (line eol rest b : List Nat)
    (h1 : ∀ c ∈ line, c ≠ 10 ∧ c ≠ 13)
    (h2 : line.dropWhile isWsByte ≠ [])
    (h3 : ¬(b = [] ∧ ((line.dropWhile isWsByte).headD 0 = 35 ∨
          (line.dropWhile isWsByte).headD 0 = 33)))
    (h4 : eol = [10] ∨ eol = [13, 10] ∨ (eol = [13] ∧ rest.headD 10 ≠ 10)) :
    loadBytesGo (line ++ eol ++ rest) b =
      if trailingBackslashes (line.dropWhile isWsByte) % 2 = 1 then
        loadBytesGo rest (b ++ (line.dropWhile isWsByte).dropLast)
      else (b ++ line.dropWhile isWsByte, false, rest) := by
  have hstno : ∀ c ∈ line.dropWhile isWsByte, c ≠ 10 ∧ c ≠ 13 :=
    fun c hc => h1 c ((List.dropWhile_sublist isWsByte).subset hc)
  have hdone : ((decide ((line.dropWhile isWsByte).headD 0 = 35) ||
      decide ((line.dropWhile isWsByte).headD 0 = 33)) && b.isEmpty) = false := by
    rcases List.eq_nil_or_concat b with hb | ⟨_, _, hb⟩
    · subst hb
      push_neg at h3
      have := h3 rfl
      simp only [List.headD] at this ⊢
      simp [this.1, this.2]
    · subst hb
      simp
  rcases h4 with h4 | h4 | ⟨h4, h4r⟩
  · subst h4
    have hskip := skipWs_append line ([10] ++ rest) h2
    have hscan := scanBody_line (line.dropWhile isWsByte) 10 rest b false h2
      hstno (Or.inl rfl)
    rw [List.append_assoc, loadBytesGo, hskip]
    dsimp only
    simp only [List.cons_append, List.singleton_append, List.nil_append]
    rw [hscan]
    dsimp only
    rw [show crHandle 10 rest = some rest from by simp [crHandle]]
    dsimp only
    rw [if_neg (by rw [hdone]; simp), escAfter_false_parity]
    by_cases hpar : trailingBackslashes (line.dropWhile isWsByte) % 2 = 1
    · rw [if_pos (by simp [hpar]), if_pos hpar,
        List.dropLast_append_of_ne_nil _ h2]
    · rw [if_neg (by simp [hpar]), if_neg hpar]
  · subst h4
    have hskip := skipWs_append line ([13, 10] ++ rest) h2
    have hscan := scanBody_line (line.dropWhile isWsByte) 13 (10 :: rest) b
      false h2 hstno (Or.inr rfl)
    rw [List.append_assoc, loadBytesGo, hskip]
    dsimp only
    simp only [List.cons_append, List.singleton_append, List.nil_append]
    rw [hscan]
    dsimp only
    rw [show crHandle 13 (10 :: rest) = some rest from by simp [crHandle]]
    dsimp only
    rw [if_neg (by rw [hdone]; simp), escAfter_false_parity]
    by_cases hpar : trailingBackslashes (line.dropWhile isWsByte) % 2 = 1
    · rw [if_pos (by simp [hpar]), if_pos hpar,
        List.dropLast_append_of_ne_nil _ h2]
    · rw [if_neg (by simp [hpar]), if_neg hpar]
  · subst h4
    cases rest with
    | nil => simp at h4r
    | cons y r =>
      have hy : y ≠ 10 := by simpa using h4r
      have hskip := skipWs_append line ([13] ++ y :: r) h2
      have hscan := scanBody_line (line.dropWhile isWsByte) 13 (y :: r) b
        false h2 hstno (Or.inr rfl)
      rw [List.append_assoc, loadBytesGo, hskip]
      dsimp only
      simp only [List.cons_append, List.singleton_append, List.nil_append]
      rw [hscan]
      dsimp only
      rw [show crHandle 13 (y :: r) = some (y :: r) from by
        simp [crHandle, hy]]
      dsimp only
      rw [if_neg (by rw [hdone]; simp), escAfter_false_parity]
      by_cases hpar : trailingBackslashes (line.dropWhile isWsByte) % 2 = 1
      · rw [if_pos (by simp [hpar]), if_pos hpar,
          List.dropLast_append_of_ne_nil _ h2]
      · rw [if_neg (by simp [hpar]), if_neg hpar]


/-- Witness for C6 at the claim's example: the line `key value1 \` ends in
an odd (single) backslash run, so the backslash and the newline are
dropped and reading continues into the indented `value2` line; the full
example loads to the value `value1 value2`. -/
theorem c6_continuation_step_witness :
    (∀ c ∈ strBytes "key value1 \\", c ≠ 10 ∧ c ≠ 13) ∧
      (strBytes "key value1 \\").dropWhile isWsByte ≠ [] ∧
      loadBytesGo (strBytes "key value1 \\" ++ [10] ++ strBytes "    value2")
          [] =
        (if trailingBackslashes
            ((strBytes "key value1 \\").dropWhile isWsByte) % 2 = 1 then
          loadBytesGo (strBytes "    value2")
            ([] ++ ((strBytes "key value1 \\").dropWhile isWsByte).dropLast)
        else ([] ++ (strBytes "key value1 \\").dropWhile isWsByte, false,
          strBytes "    value2")) ∧
      loadStr (strBytes "key value1 \\\n    value2") =
        some [(strBytes "key", strBytes "value1 value2")] :=
  ⟨by decide, by decide,
    c6_continuation_step _ _ _ _ (by decide) (by decide) (by decide)
      (Or.inl rfl),
    by simp [loadStr, loadGo, loadBytesGo, skipWs, scanBody, crHandle,
      unescape, unescapeGo, unescapeRune, utf8DecodeRune, utf8EncodeRune,
      hexScan, hexVal, skipRun, upsert, strBytes, isSpace, isDelimiter,
      isCommentPre, utf16IsSurrogate, runeError]⟩

/-- The rune returned by the shared parser core is a byte, never -1. -/
theorem parserCore_fst_nonneg (args : List (List Nat)) (oi op : Nat)
    (opts : List Nat) : 0 ≤ (parserCore args oi op opts).1.1 := by
  unfold parserCore
  dsimp only
  repeat' split
  all_goals simp

/-- Claim C10 (amended): one corresponding step of the two parsers.  From
states equal on the shared fields with `done` not yet set, `Parser.Option`
(part_002) and `Parser.Next` (getopt.go) return the same (rune, error)
result, `Args()` agrees before and after the step, the shared fields stay
equal, and `done` becomes set exactly when the step returned the
end-of-options sentinel -1 (after which `Option` pins the sentinel while
`Next` may continue, as the counterexample shows). -/
theorem c10_step_equivalence (p : GetoptState) (q : GetoptState2)
    (h : q.args = p.args ∧ q.optIndex = p.optIndex ∧ q.optPos = p.optPos ∧
      q.opts = p.opts ∧ q.hasArg = p.hasArg ∧ q.done = false) :
    (parserOption q).1 = (parserNext p).1 ∧
      parserArgs2 q = parserArgs p ∧
      (parserOption q).2.args = (parserNext p).2.args ∧
      (parserOption q).2.optIndex = (parserNext p).2.optIndex ∧
      (parserOption q).2.optPos = (parserNext p).2.optPos ∧
      (parserOption q).2.opts = (parserNext p).2.opts ∧
      (parserOption q).2.hasArg = (parserNext p).2.hasArg ∧
      parserArgs2 (parserOption q).2 = parserArgs (parserNext p).2 ∧
      ((parserOption q).2.done = true ↔ (parserNext p).1.1 = -1) := by
  obtain ⟨h1, h2, h3, h4, h5, h6⟩ := h
  cases p with
  | mk args oi op opts ha =>
    cases q with
    | mk qargs qoi qop qopts qha qdone =>
      simp only at h1 h2 h3 h4 h5 h6
      subst h1 h2 h3 h4 h5 h6
      cases qha with
      | true =>
        have hne : (parserCore qargs (qoi + 1) 1 qopts).1.1 ≠ -1 := by
          have := parserCore_fst_nonneg qargs (qoi + 1) 1 qopts
          omega
        by_cases c1 : qoi + 1 ≥ qargs.length
        · simp [parserOption, parserNext, parserArgs, parserArgs2, c1]
        · by_cases c2 : (qargs[qoi + 1]?.getD []).length ≤ 1
          · simp [parserOption, parserNext, parserArgs, parserArgs2, c1, c2]
          · by_cases c2b : (qargs[qoi + 1]?.getD []).head?.getD 0 = 45
            · by_cases c3a : (qargs[qoi + 1]?.getD []).length = 2
              · by_cases c3b : (qargs[qoi + 1]?.getD [])[1]?.getD 0 = 45
                · simp [parserOption, parserNext, parserArgs, parserArgs2,
                    c1, c2, c2b, c3a]
                  simp_all
                · simp [parserOption, parserNext, parserArgs, parserArgs2,
                    c1, c2, c2b, c3a, hne]
                  simp_all
              · simp [parserOption, parserNext, parserArgs, parserArgs2,
                  c1, c2, c2b, c3a, hne]
            · simp [parserOption, parserNext, parserArgs, parserArgs2,
                c1, c2, c2b]
      | false =>
        by_cases c1 : qoi ≥ qargs.length
        · simp [parserOption, parserNext, parserArgs, parserArgs2, c1]
        · by_cases cop : qop = 0
          · subst cop
            have hne : (parserCore qargs qoi 1 qopts).1.1 ≠ -1 := by
              have := parserCore_fst_nonneg qargs qoi 1 qopts
              omega
            by_cases c2 : (qargs[qoi]?.getD []).length ≤ 1
            · simp [parserOption, parserNext, parserArgs, parserArgs2, c1, c2]
            · by_cases c2b : (qargs[qoi]?.getD []).head?.getD 0 = 45
              · by_cases c3a : (qargs[qoi]?.getD []).length = 2
                · by_cases c3b : (qargs[qoi]?.getD [])[1]?.getD 0 = 45
                  · simp [parserOption, parserNext, parserArgs, parserArgs2,
                      c1, c2, c2b, c3a]
                    simp_all
                  · simp [parserOption, parserNext, parserArgs, parserArgs2,
                      c1, c2, c2b, c3a, hne]
                    simp_all
                · simp [parserOption, parserNext, parserArgs, parserArgs2,
                    c1, c2, c2b, c3a, hne]
              · simp [parserOption, parserNext, parserArgs, parserArgs2,
                  c1, c2, c2b]
          · have hne : (parserCore qargs qoi qop qopts).1.1 ≠ -1 := by
              have := parserCore_fst_nonneg qargs qoi qop qopts
              omega
            simp [parserOption, parserNext, parserArgs, parserArgs2, c1,
              cop, hne]

/-- Witness for the amended C10 at the repository test input
`test -ab cdef` with option string `ab:`. -/
theorem c10_step_equivalence_witness :
    ((newParser2 [strBytes "test", strBytes "-ab", strBytes "cdef"]
        (strBytes "ab:")).args =
      (newParser [strBytes "test", strBytes "-ab", strBytes "cdef"]
        (strBytes "ab:")).args ∧
      (newParser2 [strBytes "test", strBytes "-ab", strBytes "cdef"]
        (strBytes "ab:")).optIndex =
      (newParser [strBytes "test", strBytes "-ab", strBytes "cdef"]
        (strBytes "ab:")).optIndex ∧
      (newParser2 [strBytes "test", strBytes "-ab", strBytes "cdef"]
        (strBytes "ab:")).optPos =
      (newParser [strBytes "test", strBytes "-ab", strBytes "cdef"]
        (strBytes "ab:")).optPos ∧
      (newParser2 [strBytes "test", strBytes "-ab", strBytes "cdef"]
        (strBytes "ab:")).opts =
      (newParser [strBytes "test", strBytes "-ab", strBytes "cdef"]
        (strBytes "ab:")).opts ∧
      (newParser2 [strBytes "test", strBytes "-ab", strBytes "cdef"]
        (strBytes "ab:")).hasArg =
      (newParser [strBytes "test", strBytes "-ab", strBytes "cdef"]
        (strBytes "ab:")).hasArg ∧
      (newParser2 [strBytes "test", strBytes "-ab", strBytes "cdef"]
        (strBytes "ab:")).done = false) ∧
      (parserOption (newParser2 [strBytes "test", strBytes "-ab",
          strBytes "cdef"] (strBytes "ab:"))).1 =
        (parserNext (newParser [strBytes "test", strBytes "-ab",
          strBytes "cdef"] (strBytes "ab:"))).1 :=
  ⟨by decide,
    (c10_step_equivalence
      (newParser [strBytes "test", strBytes "-ab", strBytes "cdef"]
        (strBytes "ab:"))
      (newParser2 [strBytes "test", strBytes "-ab", strBytes "cdef"]
        (strBytes "ab:")) (by decide)).1⟩

/-- The streaming comment writer, related to the split-based description:
from an end-of-line `last` state it produces `commentSpec`; from any other
state it produces the current line's remainder without a prefix. -/
theorem escapeCommentGo_spec (ascii : Bool) : ∀ (rs : List Int) (last : Int),
    escapeCommentGo ascii rs last =
      if last = 10 ∨ last = 13 then commentSpec ascii rs
      else (rs.takeWhile notEol).flatMap (commentBody ascii) ++
        (match rs.dropWhile notEol with
         | [] => []
         | e :: rest => utf8EncodeRune e ++ commentSpec ascii rest) := by
  intro rs
  induction rs with
  | nil =>
    intro last
    rw [commentSpec]
    simp [escapeCommentGo]
  | cons r rest ih =>
    intro last
    by_cases hr : r = 10 ∨ r = 13
    · have hne : notEol r = false := by
        rcases hr with h | h <;> simp [notEol, h]
      have lhs : escapeCommentGo ascii (r :: rest) last =
          utf8EncodeRune r ++ escapeCommentGo ascii rest r := by
        rw [escapeCommentGo]
        rw [if_pos (by rcases hr with h | h <;> simp [h])]
      rw [lhs, ih r, if_pos hr]
      have hd : List.dropWhile notEol (r :: rest) = r :: rest := by
        simp [List.dropWhile_cons, hne]
      have ht : List.takeWhile notEol (r :: rest) = [] := by
        simp [List.takeWhile_cons, hne]
      split
      · conv_rhs => rw [commentSpec]
        rw [ht, if_neg (by simp)]
        simp only [List.flatMap_nil, List.nil_append]
        split
        · rename_i hm
          rw [hd] at hm
          cases hm
        · rename_i e rest1 hm
          rw [hd] at hm
          injection hm with hm1 hm2
          rw [hm1, hm2]
      · rw [ht]
        simp only [List.flatMap_nil, List.nil_append]
        split
        · rename_i hm
          rw [hd] at hm
          cases hm
        · rename_i e rest1 hm
          rw [hd] at hm
          injection hm with hm1 hm2
          rw [hm1, hm2]
    · have hne : notEol r = true := by
        simp only [notEol]
        rcases not_or.mp hr with ⟨h1, h2⟩
        simp [h1, h2]
      have lhs : escapeCommentGo ascii (r :: rest) last =
          (if (last = 10 || last = 13) && !isCommentPre r then [35] else [])
            ++ commentBody ascii r ++ escapeCommentGo ascii rest r := by
        rw [escapeCommentGo]
        rw [if_neg (by push_neg at hr; simp [hr.1, hr.2])]
        rw [commentBody]
      rw [lhs, ih r, if_neg hr]
      by_cases hl : last = 10 ∨ last = 13
      · rw [if_pos hl, commentSpec]
        simp only [List.takeWhile_cons, List.dropWhile_cons, hne, if_true]
        have hpre : ((last = 10 || last = 13) && !isCommentPre r) =
            !isCommentPre r := by
          rcases hl with h | h <;> simp [h]
        rw [hpre]
        by_cases hcp : isCommentPre r = true
        · simp [hcp, List.headD]
          have hd2 : List.dropWhile notEol (r :: rest) =
              List.dropWhile notEol rest := by
            simp [List.dropWhile_cons, hne]
          split
          · rename_i hm
            split
            · rfl
            · rename_i e rest1 hm2
              rw [hd2, hm] at hm2
              cases hm2
          · rename_i e rest1 hm
            split
            · rename_i hm2
              rw [hd2, hm] at hm2
              cases hm2
            · rename_i e2 rest2 hm2
              rw [hd2, hm] at hm2
              injection hm2 with ha hb
              rw [ha, hb]
        · simp only [Bool.not_eq_true] at hcp
          simp [hcp, List.headD]
          have hd2 : List.dropWhile notEol (r :: rest) =
              List.dropWhile notEol rest := by
            simp [List.dropWhile_cons, hne]
          split
          · rename_i hm
            split
            · rfl
            · rename_i e rest1 hm2
              rw [hd2, hm] at hm2
              cases hm2
          · rename_i e rest1 hm
            split
            · rename_i hm2
              rw [hd2, hm] at hm2
              cases hm2
            · rename_i e2 rest2 hm2
              rw [hd2, hm] at hm2
              injection hm2 with ha hb
              rw [ha, hb]
      · rw [if_neg hl]
        have hpre : ((last = 10 || last = 13) && !isCommentPre r) = false := by
          push_neg at hl
          simp [hl.1, hl.2]
        rw [hpre]
        simp only [Bool.false_eq_true, if_false, List.takeWhile_cons, hne,
          if_true, List.flatMap_cons, List.nil_append, List.append_assoc,
          List.append_cancel_left_eq]
        have hd2 : List.dropWhile notEol (r :: rest) =
            List.dropWhile notEol rest := by
          simp [List.dropWhile_cons, hne]
        split
        · rename_i hm
          split
          · rfl
          · rename_i e rest1 hm2
            rw [hd2, hm] at hm2
            cases hm2
        · rename_i e rest1 hm
          split
          · rename_i hm2
            rw [hd2, hm] at hm2
            cases hm2
          · rename_i e2 rest2 hm2
            rw [hd2, hm] at hm2
            injection hm2 with ha hb
            rw [ha, hb]

/-- Claim C5 (amended): `escapeComment` equals the split-based description:
the text's runes are cut into maximal end-of-line-free lines, every
end-of-line rune is written through verbatim (no normalization), and each
nonempty line whose first rune is not `'#'` or `'!'` is preceded by
`'#'`. -/
theorem c5_comment_lines_prefixed (text : List Nat) (ascii : Bool) :
    escapeComment text ascii = commentSpec ascii (stringRunes text) := by
  rw [escapeComment, escapeCommentGo_spec, if_pos (Or.inl rfl)]


theorem decode_ascii_byte (c : Nat) (rest : List Nat) (h : c < 128) :
    utf8DecodeRune (c :: rest) = (Int.ofNat c, 1) := by
  simp [utf8DecodeRune, h]

theorem encode_ascii_byte (c : Nat) (h : c < 128) :
    utf8EncodeRune (Int.ofNat c) = [c] := by
  rw [utf8EncodeRune, if_pos (by simp; omega)]
  simp

theorem stringRunes_ascii (s : List Nat) (h : ∀ b ∈ s, b < 128) :
    stringRunes s = s.map Int.ofNat := by
  induction s with
  | nil => rw [stringRunes]; rfl
  | cons c bs ih =>
    rw [stringRunes, decode_ascii_byte c bs (h c (by simp))]
    simp only [List.drop_succ_cons, List.drop_zero, List.map_cons]
    rw [ih (fun b hb => h b (by simp [hb]))]

theorem uR_nonescape (c : Nat) (rest : List Nat) (h : c ≠ 92) :
    unescapeRune (c :: rest) = (runeError, 0) := by
  rw [unescapeRune]
  simp [h]

theorem uR_backslash_letter (c : Nat) (z : List Nat) (hlt : c < 128)
    (h116 : c ≠ 116) (h110 : c ≠ 110) (h102 : c ≠ 102) (h114 : c ≠ 114)
    (h117 : c ≠ 117) :
    unescapeRune (92 :: c :: z) = (Int.ofNat c, 2) := by
  rw [unescapeRune]
  dsimp only
  rw [if_neg (by simp), decode_ascii_byte c z hlt]
  dsimp only
  rw [if_neg (by simp; omega), if_neg (by simp; omega),
    if_neg (by simp; omega), if_neg (by simp; omega),
    if_pos (by simp; omega)]

theorem hexVal_hexDigitGo (d : Nat) (h : d < 16) :
    hexVal (hexDigitGo d) = some d := by
  unfold hexVal hexDigitGo
  by_cases hd : d > 9
  · rw [if_pos hd, if_neg (by simp), if_pos (by simp; omega)]
    simp
    omega
  · rw [if_neg hd, if_pos (by simp; omega)]
    simp

theorem hexScan_hex4 (v : Nat) (h : v < 0x10000) :
    hexScan 0 (hex4 v) = (v, 4) := by
  unfold hex4
  have g3 := hexVal_hexDigitGo (v / 0x1000 % 16) (by omega)
  have g2 := hexVal_hexDigitGo (v / 0x100 % 16) (by omega)
  have g1 := hexVal_hexDigitGo (v / 16 % 16) (by omega)
  have g0 := hexVal_hexDigitGo (v % 16) (by omega)
  simp only [hexScan, g3, g2, g1, g0]
  rw [Prod.ext_iff]
  constructor
  · dsimp only
    omega
  · rfl

theorem uR_u_hex (v : Nat) (z : List Nat) (hv : v < 0xD800) :
    unescapeRune (92 :: 117 :: (hex4 v ++ z)) = (Int.ofNat v, 6) := by
  rw [unescapeRune]
  dsimp only
  rw [if_neg (by simp), decode_ascii_byte 117 (hex4 v ++ z) (by omega)]
  dsimp only
  rw [if_neg (by simp), if_neg (by simp), if_neg (by simp),
    if_neg (by simp), if_neg (by simp)]
  have hlen : (117 :: (hex4 v ++ z)).length + 1 = 6 + z.length := by
    simp [hex4]
    omega
  rw [hlen]
  have hm : min (6 + z.length) 6 = 6 := by omega
  rw [hm]
  have hw : ((117 :: (hex4 v ++ z)).drop 1).take (6 - 2) = hex4 v := by
    simp only [List.drop_succ_cons, List.drop_zero]
    rw [List.take_left']
    simp [hex4]
  rw [hw, hexScan_hex4 v (by omega)]
  dsimp only
  norm_num
  intro hsur
  exfalso
  simp [utf16IsSurrogate] at hsur
  omega

theorem uGo_nil (split : Bool) (acc : List Nat) (n : Nat) :
    unescapeGo split [] acc n = some (acc, n) := by
  rw [unescapeGo]

theorem uGo_escape (split : Bool) (chunk z acc : List Nat) (n : Nat)
    (r : Int) (hne : chunk ≠ [])
    (huR : unescapeRune (chunk ++ z) = (r, chunk.length)) :
    unescapeGo split (chunk ++ z) acc n =
      unescapeGo split z (acc ++ utf8EncodeRune r) (n + chunk.length) := by
  obtain ⟨c, cs, rfl⟩ : ∃ c cs, chunk = c :: cs := by
    cases chunk with
    | nil => exact absurd rfl hne
    | cons c cs => exact ⟨c, cs, rfl⟩
  rw [List.cons_append] at huR ⊢
  rw [unescapeGo]
  simp only [huR]
  rw [dif_neg (by simp)]
  have hdrop : (c :: (cs ++ z)).drop (c :: cs).length = z := by
    simp only [List.length_cons, List.drop_succ_cons]
    exact List.drop_left cs z
  rw [hdrop]

theorem uGo_raw (split : Bool) (c : Nat) (z acc : List Nat) (n : Nat)
    (hlt : c < 128) (h92 : c ≠ 92)
    (hns : split = false ∨
      ((isSpace (Int.ofNat c) || isDelimiter (Int.ofNat c)) = false)) :
    unescapeGo split (c :: z) acc n =
      unescapeGo split z (acc ++ [c]) (n + 1) := by
  rw [unescapeGo]
  simp only [uR_nonescape c z h92]
  rw [dif_pos trivial, decode_ascii_byte c z hlt]
  dsimp only
  rw [if_neg (by rcases hns with h | h <;> simp at h ⊢ <;> simp [h])]
  rw [encode_ascii_byte c hlt]
  simp only [List.drop_succ_cons, List.drop_zero]

theorem uGo_split_delim (d : Nat) (z acc : List Nat) (n : Nat)
    (hlt : d < 128) (h92 : d ≠ 92)
    (hsd : (isSpace (Int.ofNat d) || isDelimiter (Int.ofNat d)) = true) :
    unescapeGo true (d :: z) acc n = skipRun z (n + 1) acc := by
  rw [unescapeGo]
  simp only [uR_nonescape d z h92]
  rw [dif_pos trivial, decode_ascii_byte d z hlt]
  dsimp only
  rw [if_pos (by simp at hsd ⊢; exact hsd)]
  simp only [List.drop_succ_cons, List.drop_zero]

theorem skipRun_stop (c : Nat) (z acc : List Nat) (n : Nat) (hlt : c < 128)
    (hns : (isSpace (Int.ofNat c) || isDelimiter (Int.ofNat c)) = false) :
    skipRun (c :: z) n acc = some (acc, n) := by
  rw [skipRun]
  rw [decode_ascii_byte c z hlt]
  dsimp only
  rw [if_pos (by simp at hns ⊢; exact hns)]

theorem uR_esc_n (z : List Nat) : unescapeRune (92 :: 110 :: z) = (10, 2) := by
  rw [unescapeRune]
  dsimp only
  rw [if_neg (by simp), decode_ascii_byte 110 z (by omega)]
  dsimp only
  rw [if_neg (by simp), if_pos (by simp)]

theorem uR_esc_r (z : List Nat) : unescapeRune (92 :: 114 :: z) = (13, 2) := by
  rw [unescapeRune]
  dsimp only
  rw [if_neg (by simp), decode_ascii_byte 114 z (by omega)]
  dsimp only
  rw [if_neg (by simp), if_neg (by simp), if_neg (by simp), if_pos (by simp)]

theorem escapeRune_ascii (c : Nat) (h : c < 128) :
    escapeRune (Int.ofNat c) =
      if 32 ≤ c ∧ c ≤ 126 then [] else [92, 117] ++ hex4 c := by
  rw [escapeRune]
  rw [if_neg (by simp; omega)]
  by_cases hp : 32 ≤ c ∧ c ≤ 126
  · rw [if_pos (by simp; omega), if_pos hp]
  · rw [if_neg (by simp; omega), if_neg hp]
    rw [if_neg (by simp)]
    simp


theorem hexDigitGo_range (d : Nat) (h : d < 16) :
    (48 ≤ hexDigitGo d ∧ hexDigitGo d ≤ 57) ∨
      (97 ≤ hexDigitGo d ∧ hexDigitGo d ≤ 102) := by
  unfold hexDigitGo
  split <;> omega

theorem hex4_facts (v : Nat) :
    (∀ x ∈ hex4 v, 48 ≤ x ∧ x ≤ 102 ∧ x ≠ 92) := by
  intro x hx
  simp only [hex4, List.mem_cons, List.not_mem_nil, or_false] at hx
  have r3 := hexDigitGo_range (v / 0x1000 % 16) (Nat.mod_lt _ (by omega))
  have r2 := hexDigitGo_range (v / 0x100 % 16) (Nat.mod_lt _ (by omega))
  have r1 := hexDigitGo_range (v / 16 % 16) (Nat.mod_lt _ (by omega))
  have r0 := hexDigitGo_range (v % 16) (Nat.mod_lt _ (by omega))
  rcases hx with h | h | h | h <;> subst h <;> omega

/-- Shape of one key-mode chunk for a good (ASCII, non-backslash) byte:
it is nonempty, contains no end-of-line byte, does not end in a
backslash, and either is the raw byte (then neither whitespace, delimiter
nor comment prefix) or starts with a backslash and is decoded back by
`unescapeRune`, consuming exactly the chunk. -/
theorem keyChunk_spec (ascii : Bool) (c : Nat) (hlt : c < 128)
    (h92 : c ≠ 92) :
    escapeOneKey ascii (Int.ofNat c) ≠ [] ∧
    (∀ x ∈ escapeOneKey ascii (Int.ofNat c), x ≠ 10 ∧ x ≠ 13) ∧
    (escapeOneKey ascii (Int.ofNat c)).getLast? ≠ some 92 ∧
    ((escapeOneKey ascii (Int.ofNat c) = [c] ∧
      (isSpace (Int.ofNat c) || isDelimiter (Int.ofNat c)) = false ∧
      isCommentPre (Int.ofNat c) = false) ∨
     ((escapeOneKey ascii (Int.ofNat c)).headD 0 = 92 ∧ ∀ z,
      unescapeRune (escapeOneKey ascii (Int.ofNat c) ++ z) =
        (Int.ofNat c, (escapeOneKey ascii (Int.ofNat c)).length))) := by
  have hOK : ∀ _ : (if ascii then escapeRune (Int.ofNat c) else []) = [],
      escapeOneKey ascii (Int.ofNat c) =
        (if Int.ofNat c = 10 then [92, 110]
         else if Int.ofNat c = 13 then [92, 114]
         else if isSpace (Int.ofNat c) || isDelimiter (Int.ofNat c) ||
             isCommentPre (Int.ofNat c) then 92 :: utf8EncodeRune (Int.ofNat c)
         else utf8EncodeRune (Int.ofNat c)) := by
    intro he
    unfold escapeOneKey
    rw [he]
    simp
  by_cases hasc : ascii = true
  · subst hasc
    rw [escapeRune_ascii c hlt] at hOK
    by_cases hp : 32 ≤ c ∧ c ≤ 126
    · have he : (if true = true then (if 32 ≤ c ∧ c ≤ 126 then ([] : List Nat)
          else [92, 117] ++ hex4 c) else []) = [] := by
        simp [hp]
      rw [hOK he]
      rw [if_neg (by simp; omega), if_neg (by simp; omega)]
      by_cases hsc : (isSpace (Int.ofNat c) || isDelimiter (Int.ofNat c) ||
          isCommentPre (Int.ofNat c)) = true
      · have hcs : c = 9 ∨ c = 12 ∨ c = 32 ∨ c = 61 ∨ c = 58 ∨ c = 35 ∨
            c = 33 := by
          simp [isSpace, isDelimiter, isCommentPre] at hsc
          omega
        rw [if_pos hsc, encode_ascii_byte c hlt]
        refine ⟨by simp, ?_, ?_, Or.inr ⟨rfl, fun z => ?_⟩⟩
        · intro x hx
          simp at hx
          rcases hx with h | h <;> omega
        · simp
          omega
        · rw [List.cons_append, List.singleton_append]
          rw [uR_backslash_letter c z hlt (by omega) (by omega) (by omega)
            (by omega) (by omega)]
          simp
      · rw [if_neg hsc, encode_ascii_byte c hlt]
        have hns : ¬(c = 9 ∨ c = 12 ∨ c = 32 ∨ c = 61 ∨ c = 58 ∨ c = 35 ∨
            c = 33) := by
          simp [isSpace, isDelimiter, isCommentPre] at hsc
          omega
        refine ⟨by simp, ?_, by simp; omega, Or.inl ⟨rfl, ?_, ?_⟩⟩
        · intro x hx
          simp at hx
          omega
        · simp [isSpace, isDelimiter]
          omega
        · simp [isCommentPre]
          omega
    · have hch : escapeOneKey true (Int.ofNat c) = [92, 117] ++ hex4 c := by
        unfold escapeOneKey
        rw [escapeRune_ascii c hlt]
        simp [hp, hex4]
      rw [hch]
      refine ⟨by simp, ?_, ?_, Or.inr ⟨by simp, fun z => ?_⟩⟩
      · intro x hx
        simp only [List.cons_append, List.nil_append, List.mem_cons] at hx
        rcases hx with h | h | h
        · omega
        · omega
        · have := hex4_facts c x h
          omega
      · have hg : ([92, 117] ++ hex4 c).getLast? =
            some (hexDigitGo (c % 16)) := by
          simp [hex4]
        rw [hg]
        have := hexDigitGo_range (c % 16) (Nat.mod_lt _ (by omega))
        simp
        omega
      · have := uR_u_hex c z (by omega)
        rw [List.append_assoc]
        simp only [List.cons_append, List.nil_append] at this ⊢
        rw [this]
        simp [hex4]
  · have hfalse : ascii = false := by
      cases ascii
      · rfl
      · exact absurd rfl hasc
    subst hfalse
    have he : (if false = true then escapeRune (Int.ofNat c)
        else ([] : List Nat)) = [] := by simp
    rw [hOK he]
    by_cases h10 : c = 10
    · subst h10
      rw [if_pos (by simp)]
      refine ⟨by simp, by simp, by simp, Or.inr ⟨rfl, fun z => ?_⟩⟩
      rw [List.cons_append, List.singleton_append, uR_esc_n]
      rfl
    · by_cases h13 : c = 13
      · subst h13
        rw [if_neg (by simp), if_pos (by simp)]
        refine ⟨by simp, by simp, by simp, Or.inr ⟨rfl, fun z => ?_⟩⟩
        rw [List.cons_append, List.singleton_append, uR_esc_r]
        rfl
      · rw [if_neg (by simp; omega), if_neg (by simp; omega)]
        by_cases hsc : (isSpace (Int.ofNat c) || isDelimiter (Int.ofNat c) ||
            isCommentPre (Int.ofNat c)) = true
        · have hcs : c = 9 ∨ c = 12 ∨ c = 32 ∨ c = 61 ∨ c = 58 ∨ c = 35 ∨
              c = 33 := by
            simp [isSpace, isDelimiter, isCommentPre] at hsc
            omega
          rw [if_pos hsc, encode_ascii_byte c hlt]
          refine ⟨by simp, ?_, ?_, Or.inr ⟨rfl, fun z => ?_⟩⟩
          · intro x hx
            simp at hx
            rcases hx with h | h <;> omega
          · simp
            omega
          · rw [List.cons_append, List.singleton_append]
            rw [uR_backslash_letter c z hlt (by omega) (by omega) (by omega)
              (by omega) (by omega)]
            simp
        · rw [if_neg hsc, encode_ascii_byte c hlt]
          have hns : ¬(c = 9 ∨ c = 12 ∨ c = 32 ∨ c = 61 ∨ c = 58 ∨ c = 35 ∨
              c = 33) := by
            simp [isSpace, isDelimiter, isCommentPre] at hsc
            omega
          refine ⟨by simp, ?_, by simp; omega, Or.inl ⟨rfl, ?_, ?_⟩⟩
          · intro x hx
            simp at hx
            omega
          · simp [isSpace, isDelimiter]
            omega
          · simp [isCommentPre]
            omega

/-- Shape of one value-mode chunk for a good byte: like the key chunks,
but whitespace and delimiters are written raw (only comment-prefix bytes
get the backslash). -/
theorem valChunk_spec (ascii : Bool) (c : Nat) (hlt : c < 128)
    (h92 : c ≠ 92) :
    escapeOneVal ascii (Int.ofNat c) ≠ [] ∧
    (∀ x ∈ escapeOneVal ascii (Int.ofNat c), x ≠ 10 ∧ x ≠ 13) ∧
    (escapeOneVal ascii (Int.ofNat c)).getLast? ≠ some 92 ∧
    (escapeOneVal ascii (Int.ofNat c) = [c] ∨
     ((escapeOneVal ascii (Int.ofNat c)).headD 0 = 92 ∧ ∀ z,
      unescapeRune (escapeOneVal ascii (Int.ofNat c) ++ z) =
        (Int.ofNat c, (escapeOneVal ascii (Int.ofNat c)).length))) := by
  have hOK : ∀ _ : (if ascii then escapeRune (Int.ofNat c) else []) = [],
      escapeOneVal ascii (Int.ofNat c) =
        (if Int.ofNat c = 10 then [92, 110]
         else if Int.ofNat c = 13 then [92, 114]
         else if isCommentPre (Int.ofNat c) then
           92 :: utf8EncodeRune (Int.ofNat c)
         else utf8EncodeRune (Int.ofNat c)) := by
    intro he
    unfold escapeOneVal
    rw [he]
    simp
  by_cases hasc : ascii = true
  · subst hasc
    rw [escapeRune_ascii c hlt] at hOK
    by_cases hp : 32 ≤ c ∧ c ≤ 126
    · have he : (if true = true then (if 32 ≤ c ∧ c ≤ 126 then ([] : List Nat)
          else [92, 117] ++ hex4 c) else []) = [] := by
        simp [hp]
      rw [hOK he]
      rw [if_neg (by simp; omega), if_neg (by simp; omega)]
      by_cases hsc : isCommentPre (Int.ofNat c) = true
      · have hcs : c = 35 ∨ c = 33 := by
          simp [isCommentPre] at hsc
          omega
        rw [if_pos hsc, encode_ascii_byte c hlt]
        refine ⟨by simp, ?_, ?_, Or.inr ⟨rfl, fun z => ?_⟩⟩
        · intro x hx
          simp at hx
          rcases hx with h | h <;> omega
        · simp
          omega
        · rw [List.cons_append, List.singleton_append]
          rw [uR_backslash_letter c z hlt (by omega) (by omega) (by omega)
            (by omega) (by omega)]
          simp
      · rw [if_neg hsc, encode_ascii_byte c hlt]
        refine ⟨by simp, ?_, by simp; omega, Or.inl rfl⟩
        intro x hx
        simp at hx
        omega
    · have hch : escapeOneVal true (Int.ofNat c) = [92, 117] ++ hex4 c := by
        unfold escapeOneVal
        rw [escapeRune_ascii c hlt]
        simp [hp, hex4]
      rw [hch]
      refine ⟨by simp, ?_, ?_, Or.inr ⟨by simp, fun z => ?_⟩⟩
      · intro x hx
        simp only [List.cons_append, List.nil_append, List.mem_cons] at hx
        rcases hx with h | h | h
        · omega
        · omega
        · have := hex4_facts c x h
          omega
      · have hg : ([92, 117] ++ hex4 c).getLast? =
            some (hexDigitGo (c % 16)) := by
          simp [hex4]
        rw [hg]
        have := hexDigitGo_range (c % 16) (Nat.mod_lt _ (by omega))
        simp
        omega
      · have := uR_u_hex c z (by omega)
        rw [List.append_assoc]
        simp only [List.cons_append, List.nil_append] at this ⊢
        rw [this]
        simp [hex4]
  · have hfalse : ascii = false := by
      cases ascii
      · rfl
      · exact absurd rfl hasc
    subst hfalse
    have he : (if false = true then escapeRune (Int.ofNat c)
        else ([] : List Nat)) = [] := by simp
    rw [hOK he]
    by_cases h10 : c = 10
    · subst h10
      rw [if_pos (by simp)]
      refine ⟨by simp, by simp, by simp, Or.inr ⟨rfl, fun z => ?_⟩⟩
      rw [List.cons_append, List.singleton_append, uR_esc_n]
      rfl
    · by_cases h13 : c = 13
      · subst h13
        rw [if_neg (by simp), if_pos (by simp)]
        refine ⟨by simp, by simp, by simp, Or.inr ⟨rfl, fun z => ?_⟩⟩
        rw [List.cons_append, List.singleton_append, uR_esc_r]
        rfl
      · rw [if_neg (by simp; omega), if_neg (by simp; omega)]
        by_cases hsc : isCommentPre (Int.ofNat c) = true
        · have hcs : c = 35 ∨ c = 33 := by
            simp [isCommentPre] at hsc
            omega
          rw [if_pos hsc, encode_ascii_byte c hlt]
          refine ⟨by simp, ?_, ?_, Or.inr ⟨rfl, fun z => ?_⟩⟩
          · intro x hx
            simp at hx
            rcases hx with h | h <;> omega
          · simp
            omega
          · rw [List.cons_append, List.singleton_append]
            rw [uR_backslash_letter c z hlt (by omega) (by omega) (by omega)
              (by omega) (by omega)]
            simp
        · rw [if_neg hsc, encode_ascii_byte c hlt]
          refine ⟨by simp, ?_, by simp; omega, Or.inl rfl⟩
          intro x hx
          simp at hx
          omega

/-- A whitespace or delimiter byte that is printable (or ascii mode off)
is written raw in value mode. -/
theorem valChunk_raw (ascii : Bool) (c : Nat)
    (h : c = 9 ∨ c = 12 ∨ c = 32 ∨ c = 61 ∨ c = 58)
    (hA : ascii = true → c = 32 ∨ c = 61 ∨ c = 58) :
    escapeOneVal ascii (Int.ofNat c) = [c] := by
  unfold escapeOneVal
  have he : (if ascii then escapeRune (Int.ofNat c) else []) = [] := by
    cases ascii
    · simp
    · rw [escapeRune_ascii c (by omega)]
      have := hA rfl
      simp
      omega
  rw [he]
  rw [encode_ascii_byte c (by omega)]
  simp only [List.length_nil, ne_eq, not_true_eq_false, if_false, reduceIte]
  rw [if_neg (by simp; omega), if_neg (by simp; omega),
    if_neg (by simp [isCommentPre]; omega)]

theorem keyScan (ascii : Bool) (ks : List Nat) : ∀ (z acc : List Nat)
    (n : Nat), (∀ c ∈ ks, c < 128 ∧ c ≠ 92) →
    unescapeGo true
        (ks.flatMap (fun c => escapeOneKey ascii (Int.ofNat c)) ++ z) acc n =
      unescapeGo true z (acc ++ ks)
        (n + (ks.flatMap (fun c =>
          escapeOneKey ascii (Int.ofNat c))).length) := by
  induction ks with
  | nil => intro z acc n _; simp
  | cons c cs ih =>
    intro z acc n h
    have hc := h c (by simp)
    obtain ⟨hne, hno, hlast, hcase⟩ := keyChunk_spec ascii c hc.1 hc.2
    rw [List.flatMap_cons, List.append_assoc]
    rcases hcase with ⟨hraw, hsd, hcp⟩ | ⟨hhd, huR⟩
    · rw [hraw, List.singleton_append]
      rw [uGo_raw true c _ acc n hc.1 hc.2 (Or.inr (by
        simp at hsd ⊢
        exact hsd))]
      rw [ih z (acc ++ [c]) (n + 1) (fun b hb => h b (by simp [hb]))]
      congr 1
      · simp
      · simp
        omega
    · rw [uGo_escape true (escapeOneKey ascii (Int.ofNat c)) _ acc n
        (Int.ofNat c) hne (huR _)]
      rw [encode_ascii_byte c hc.1]
      rw [ih z (acc ++ [c])
        (n + (escapeOneKey ascii (Int.ofNat c)).length)
        (fun b hb => h b (by simp [hb]))]
      congr 1
      · simp
      · simp
        omega

theorem valScan (ascii : Bool) (vs : List Nat) : ∀ (z acc : List Nat)
    (n : Nat), (∀ c ∈ vs, c < 128 ∧ c ≠ 92) →
    unescapeGo false
        (vs.flatMap (fun c => escapeOneVal ascii (Int.ofNat c)) ++ z) acc n =
      unescapeGo false z (acc ++ vs)
        (n + (vs.flatMap (fun c =>
          escapeOneVal ascii (Int.ofNat c))).length) := by
  induction vs with
  | nil => intro z acc n _; simp
  | cons c cs ih =>
    intro z acc n h
    have hc := h c (by simp)
    obtain ⟨hne, hno, hlast, hcase⟩ := valChunk_spec ascii c hc.1 hc.2
    rw [List.flatMap_cons, List.append_assoc]
    rcases hcase with hraw | ⟨hhd, huR⟩
    · rw [hraw, List.singleton_append]
      rw [uGo_raw false c _ acc n hc.1 hc.2 (Or.inl rfl)]
      rw [ih z (acc ++ [c]) (n + 1) (fun b hb => h b (by simp [hb]))]
      congr 1
      · simp
      · simp
        omega
    · rw [uGo_escape false (escapeOneVal ascii (Int.ofNat c)) _ acc n
        (Int.ofNat c) hne (huR _)]
      rw [encode_ascii_byte c hc.1]
      rw [ih z (acc ++ [c])
        (n + (escapeOneVal ascii (Int.ofNat c)).length)
        (fun b hb => h b (by simp [hb]))]
      congr 1
      · simp
      · simp
        omega

/-- Under the ASCII hypotheses, `escape` is the concatenation of the
per-byte key chunks, the `'='`, the optional protecting backslash for a
leading whitespace/delimiter value byte, and the per-byte value chunks. -/
theorem escape_ascii_form (k v : List Nat) (ascii : Bool)
    (hk : ∀ b ∈ k, b < 128) (hv : ∀ b ∈ v, b < 128) :
    escape k v ascii =
      k.flatMap (fun c => escapeOneKey ascii (Int.ofNat c)) ++ [61] ++
      (if (isSpace (Int.ofNat (v.headD 0)) ||
          isDelimiter (Int.ofNat (v.headD 0))) = true ∧ v ≠ []
        then [92] else []) ++
      v.flatMap (fun c => escapeOneVal ascii (Int.ofNat c)) := by
  rw [escape, stringRunes_ascii k hk, stringRunes_ascii v hv,
    List.flatMap_map, List.flatMap_map]
  congr 1
  congr 1
  cases v with
  | nil => simp [utf8DecodeRune, isSpace, isDelimiter, runeError]
  | cons v0 vt =>
    rw [decode_ascii_byte v0 vt (hv v0 (by simp))]
    dsimp only [List.headD_cons]
    by_cases hsd : (isSpace (Int.ofNat v0) || isDelimiter (Int.ofNat v0))
        = true
    · rw [if_pos (by simp at hsd ⊢; exact hsd), if_pos ⟨hsd, by simp⟩]
    · rw [if_neg (by simp at hsd ⊢; exact hsd),
        if_neg (by
          intro hcon
          exact absurd hcon.1 hsd)]

/-- Splitting and unescaping one stored line recovers the key and the
value. -/
theorem line_unescape (ascii : Bool) (k v : List Nat)
    (hk : ∀ b ∈ k, b < 128 ∧ b ≠ 92) (hv : ∀ b ∈ v, b < 128 ∧ b ≠ 92)
    (hvne : v ≠ [])
    (hA : ascii = true → v.headD 0 ≠ 9 ∧ v.headD 0 ≠ 12) :
    unescape (escape k v ascii) true =
      some (k, (k.flatMap (fun c =>
        escapeOneKey ascii (Int.ofNat c))).length + 1) ∧
    ∃ m, unescape ((escape k v ascii).drop
        ((k.flatMap (fun c => escapeOneKey ascii (Int.ofNat c))).length + 1))
      false = some (v, m) := by
  obtain ⟨v0, vt, rfl⟩ : ∃ v0 vt, v = v0 :: vt := by
    cases v with
    | nil => exact absurd rfl hvne
    | cons v0 vt => exact ⟨v0, vt, rfl⟩
  have hv0 := hv v0 (by simp)
  have hform := escape_ascii_form k (v0 :: vt) ascii
    (fun b hb => (hk b hb).1) (fun b hb => (hv b hb).1)
  by_cases hsd : (isSpace (Int.ofNat v0) || isDelimiter (Int.ofNat v0))
      = true
  · -- protected leading whitespace/delimiter byte
    have hv0cs : v0 = 9 ∨ v0 = 12 ∨ v0 = 32 ∨ v0 = 61 ∨ v0 = 58 := by
      simp [isSpace, isDelimiter] at hsd
      omega
    have hraw0 : escapeOneVal ascii (Int.ofNat v0) = [v0] := by
      refine valChunk_raw ascii v0 hv0cs (fun ha => ?_)
      have := hA ha
      simp only [List.headD_cons] at this
      omega
    have hL : escape k (v0 :: vt) ascii =
        k.flatMap (fun c => escapeOneKey ascii (Int.ofNat c)) ++
          (61 :: 92 :: (v0 :: vt).flatMap
            (fun c => escapeOneVal ascii (Int.ofNat c))) := by
      rw [hform, if_pos ⟨by simpa using hsd, by simp⟩]
      simp
    constructor
    · rw [unescape, hL]
      rw [keyScan ascii k _ [] 0 hk]
      simp only [List.nil_append, Nat.zero_add]
      rw [uGo_split_delim 61 _ k _ (by omega) (by omega)
        (by simp [isDelimiter])]
      rw [skipRun_stop 92 _ k _ (by omega) (by simp [isSpace, isDelimiter])]
    · rw [hL]
      have hdrop : (k.flatMap (fun c => escapeOneKey ascii (Int.ofNat c)) ++
          (61 :: 92 :: (v0 :: vt).flatMap
            (fun c => escapeOneVal ascii (Int.ofNat c)))).drop
          ((k.flatMap (fun c => escapeOneKey ascii (Int.ofNat c))).length + 1)
          = 92 :: (v0 :: vt).flatMap
            (fun c => escapeOneVal ascii (Int.ofNat c)) := by
        rw [List.drop_append 1]
        simp
      rw [hdrop]
      rw [List.flatMap_cons, hraw0]
      have hchu : unescapeRune ([92, v0] ++ vt.flatMap
          (fun c => escapeOneVal ascii (Int.ofNat c))) = (Int.ofNat v0, 2) := by
        rw [List.cons_append, List.singleton_append]
        rw [uR_backslash_letter v0 _ hv0.1 (by omega) (by omega) (by omega)
          (by omega) (by omega)]
      have := uGo_escape false [92, v0]
        (vt.flatMap (fun c => escapeOneVal ascii (Int.ofNat c))) [] 0
        (Int.ofNat v0) (by simp) (by simpa using hchu)
      rw [unescape]
      rw [show (92 :: ([v0] ++ vt.flatMap
          (fun c => escapeOneVal ascii (Int.ofNat c)))) =
        [92, v0] ++ vt.flatMap (fun c => escapeOneVal ascii (Int.ofNat c))
        from by simp]
      rw [this, encode_ascii_byte v0 hv0.1]
      have hvs := valScan ascii vt [] ([] ++ [v0]) (0 + [92, v0].length)
        (fun b hb => hv b (by simp [hb]))
      rw [List.append_nil] at hvs
      rw [hvs, uGo_nil]
      exact ⟨0 + [92, v0].length + (vt.flatMap (fun c =>
        escapeOneVal ascii (Int.ofNat c))).length, by simp⟩
  · -- unprotected value head
    have hL : escape k (v0 :: vt) ascii =
        k.flatMap (fun c => escapeOneKey ascii (Int.ofNat c)) ++
          (61 :: (v0 :: vt).flatMap
            (fun c => escapeOneVal ascii (Int.ofNat c))) := by
      rw [hform, if_neg (fun hcon => absurd hcon.1 hsd)]
      simp
    obtain ⟨hne0, hno0, hlast0, hcase0⟩ := valChunk_spec ascii v0 hv0.1 hv0.2
    constructor
    · rw [unescape, hL]
      rw [keyScan ascii k _ [] 0 hk]
      simp only [List.nil_append, Nat.zero_add]
      rw [uGo_split_delim 61 _ k _ (by omega) (by omega)
        (by simp [isDelimiter])]
      rw [List.flatMap_cons]
      rcases hcase0 with hraw | ⟨hhd, _⟩
      · rw [hraw, List.singleton_append]
        rw [skipRun_stop v0 _ k _ hv0.1 (by simpa using hsd)]
      · obtain ⟨t, ht⟩ : ∃ t, escapeOneVal ascii (Int.ofNat v0) = 92 :: t := by
          cases hc : escapeOneVal ascii (Int.ofNat v0) with
          | nil => exact absurd hc hne0
          | cons a as =>
            rw [hc] at hhd
            simp at hhd
            exact ⟨as, by rw [hhd]⟩
        rw [ht, List.cons_append]
        rw [skipRun_stop 92 _ k _ (by omega)
          (by simp [isSpace, isDelimiter])]
    · rw [hL]
      have hdrop : (k.flatMap (fun c => escapeOneKey ascii (Int.ofNat c)) ++
          (61 :: (v0 :: vt).flatMap
            (fun c => escapeOneVal ascii (Int.ofNat c)))).drop
          ((k.flatMap (fun c => escapeOneKey ascii (Int.ofNat c))).length + 1)
          = (v0 :: vt).flatMap
            (fun c => escapeOneVal ascii (Int.ofNat c)) := by
        rw [List.drop_append 1]
        simp
      rw [hdrop, unescape]
      have hvs := valScan ascii (v0 :: vt) [] [] 0 hv
      rw [List.append_nil] at hvs
      rw [hvs, uGo_nil]
      exact ⟨0 + ((v0 :: vt).flatMap (fun c =>
        escapeOneVal ascii (Int.ofNat c))).length, by simp⟩

theorem trailingBackslashes_zero (l : List Nat) (h : l.getLast? ≠ some 92) :
    trailingBackslashes l = 0 := by
  cases hrev : l.reverse with
  | nil => simp [trailingBackslashes, hrev]
  | cons g t =>
    have hg : l.getLast? = some g := by
      rw [← List.head?_reverse, hrev]
      rfl
    have hne : g ≠ 92 := fun hc => h (hc ▸ hg)
    simp [trailingBackslashes, hrev, List.takeWhile_cons, hne]

theorem flatMap_getLast_ne (f : Nat → List Nat) (vs : List Nat)
    (hne : vs ≠ [])
    (h : ∀ c ∈ vs, f c ≠ [] ∧ (f c).getLast? ≠ some 92) :
    ∃ g, (vs.flatMap f).getLast? = some g ∧ g ≠ 92 := by
  induction vs using List.reverseRecOn with
  | nil => exact absurd rfl hne
  | append_singleton ws w _ =>
    have hw := h w (by simp)
    obtain ⟨g, hg⟩ : ∃ g, (f w).getLast? = some g := by
      cases hfw : (f w).getLast? with
      | none => exact absurd (List.getLast?_eq_none_iff.mp hfw) hw.1
      | some g => exact ⟨g, rfl⟩
    refine ⟨g, ?_, fun hc => hw.2 (hc ▸ hg)⟩
    rw [List.flatMap_append, List.getLast?_append]
    have h1 : ([w].flatMap f).getLast? = some g := by simpa using hg
    rw [h1]
    rfl

/-- The first byte of an escaped key followed by the `'='` delimiter is a
backslash or a byte that is neither whitespace nor a comment starter. -/
theorem escape_head_safe (ascii : Bool) (k rest : List Nat)
    (hk : goodStr k) :
    (k.flatMap (fun c => escapeOneKey ascii (Int.ofNat c))
        ++ 61 :: rest).headD 0 = 92 ∨
    ((k.flatMap (fun c => escapeOneKey ascii (Int.ofNat c))
        ++ 61 :: rest).headD 0 ≠ 9 ∧
     (k.flatMap (fun c => escapeOneKey ascii (Int.ofNat c))
        ++ 61 :: rest).headD 0 ≠ 12 ∧
     (k.flatMap (fun c => escapeOneKey ascii (Int.ofNat c))
        ++ 61 :: rest).headD 0 ≠ 32 ∧
     (k.flatMap (fun c => escapeOneKey ascii (Int.ofNat c))
        ++ 61 :: rest).headD 0 ≠ 35 ∧
     (k.flatMap (fun c => escapeOneKey ascii (Int.ofNat c))
        ++ 61 :: rest).headD 0 ≠ 33) := by
  cases k with
  | nil =>
    right
    simp
  | cons k0 kt =>
    have h0 := hk k0 (by simp)
    obtain ⟨hne0, _, _, hcase⟩ := keyChunk_spec ascii k0 h0.1 h0.2
    rw [List.flatMap_cons]
    rcases hcase with ⟨hraw, hsd, hcp⟩ | ⟨hhd92, _⟩
    · right
      rw [hraw]
      simp only [List.cons_append, List.nil_append, List.headD_cons]
      refine ⟨?_, ?_, ?_, ?_, ?_⟩ <;> intro hc <;> subst hc <;>
        simp [isSpace, isDelimiter, isCommentPre] at hsd hcp
    · left
      cases hc : escapeOneKey ascii (Int.ofNat k0) with
      | nil => exact absurd hc hne0
      | cons a as =>
        rw [hc] at hhd92
        simp only [List.cons_append, List.headD_cons]
        simpa using hhd92

/-- Shape of one escaped line: nonempty, leading byte neither whitespace
nor a comment starter, no end-of-line bytes, and it does not end in a
backslash. -/
theorem escape_line_shape (ascii : Bool) (k v : List Nat)
    (hk : goodStr k) (hv : goodStr v) (hvne : v ≠ []) :
    escape k v ascii ≠ [] ∧
    isWsByte ((escape k v ascii).headD 0) = false ∧
    (escape k v ascii).headD 0 ≠ 35 ∧
    (escape k v ascii).headD 0 ≠ 33 ∧
    (∀ x ∈ escape k v ascii, x ≠ 10 ∧ x ≠ 13) ∧
    (escape k v ascii).getLast? ≠ some 92 := by
  have hform := escape_ascii_form k v ascii (fun b hb => (hk b hb).1)
    (fun b hb => (hv b hb).1)
  have hform2 : escape k v ascii =
      k.flatMap (fun c => escapeOneKey ascii (Int.ofNat c)) ++
        61 :: ((if (isSpace (Int.ofNat (v.headD 0)) ||
            isDelimiter (Int.ofNat (v.headD 0))) = true ∧ v ≠ []
          then [92] else []) ++
          v.flatMap (fun c => escapeOneVal ascii (Int.ofNat c))) := by
    rw [hform]
    simp
  obtain ⟨gv, hgv, hgv92⟩ := flatMap_getLast_ne
    (fun c => escapeOneVal ascii (Int.ofNat c)) v hvne
    (fun c hc => ⟨(valChunk_spec ascii c (hv c hc).1 (hv c hc).2).1,
      (valChunk_spec ascii c (hv c hc).1 (hv c hc).2).2.2.1⟩)
  have hhd := escape_head_safe ascii k
    ((if (isSpace (Int.ofNat (v.headD 0)) ||
        isDelimiter (Int.ofNat (v.headD 0))) = true ∧ v ≠ []
      then [92] else []) ++
      v.flatMap (fun c => escapeOneVal ascii (Int.ofNat c))) hk
  rw [← hform2] at hhd
  refine ⟨?_, ?_, ?_, ?_, ?_, ?_⟩
  · rw [hform2]
    simp
  · rcases hhd with h | h
    · rw [h]
      simp [isWsByte]
    · simp only [isWsByte, Bool.or_eq_false_iff, decide_eq_false_iff_not]
      exact ⟨⟨h.1, h.2.1⟩, h.2.2.1⟩
  · rcases hhd with h | h
    · rw [h]
      omega
    · exact h.2.2.2.1
  · rcases hhd with h | h
    · rw [h]
      omega
    · exact h.2.2.2.2
  · intro x hx
    rw [hform2] at hx
    simp only [List.mem_append, List.mem_cons] at hx
    rcases hx with hx | hx | hx | hx
    · obtain ⟨c, hc, hxc⟩ := List.mem_flatMap.mp hx
      exact (keyChunk_spec ascii c (hk c hc).1 (hk c hc).2).2.1 x hxc
    · subst hx
      exact ⟨by omega, by omega⟩
    · split at hx
      · simp at hx
        subst hx
        exact ⟨by omega, by omega⟩
      · simp at hx
    · obtain ⟨c, hc, hxc⟩ := List.mem_flatMap.mp hx
      exact (valChunk_spec ascii c (hv c hc).1 (hv c hc).2).2.1 x hxc
  · rw [hform]
    rw [List.getLast?_append, hgv]
    intro hc
    exact hgv92 (by simpa using hc)

/-- Reading one stored line: the whole line is accumulated, no
end-of-file, and the stream after the newline remains. -/
theorem loadBytes_line (L rest : List Nat) (hne : L ≠ [])
    (hws : isWsByte (L.headD 0) = false)
    (h35 : L.headD 0 ≠ 35) (h33 : L.headD 0 ≠ 33)
    (hno : ∀ x ∈ L, x ≠ 10 ∧ x ≠ 13) (hlast : L.getLast? ≠ some 92) :
    loadBytesGo (L ++ 10 :: rest) [] = (L, false, rest) := by
  have hdw : L.dropWhile isWsByte = L := by
    cases L with
    | nil => rfl
    | cons a as =>
      have : isWsByte a = false := by simpa using hws
      simp [List.dropWhile_cons, this]
  have h2 : L.dropWhile isWsByte ≠ [] := by rw [hdw]; exact hne
  have hskip := skipWs_append L (10 :: rest) h2
  rw [hdw] at hskip
  have hscan := scanBody_line L 10 rest [] false hne hno (Or.inl rfl)
  rw [loadBytesGo, hskip]
  dsimp only
  rw [hscan]
  dsimp only
  rw [show crHandle 10 rest = some rest from by simp [crHandle]]
  dsimp only
  have hdone : ((decide (L.headD 0 = 35) || decide (L.headD 0 = 33)) &&
      List.isEmpty ([] : List Nat)) = false := by
    rw [decide_eq_false h35, decide_eq_false h33]
    rfl
  rw [if_neg (by rw [hdone]; simp)]
  rw [escAfter_false_parity, trailingBackslashes_zero L hlast]
  simp

theorem loadGo_nil (acc : List (List Nat × List Nat)) :
    loadGo [] acc = some acc := by
  rw [loadGo]
  simp [loadBytesGo, skipWs]

theorem upsert_fresh (m : List (List Nat × List Nat)) (k v : List Nat)
    (h : k ∉ m.map Prod.fst) : upsert m k v = m ++ [(k, v)] := by
  induction m with
  | nil => rfl
  | cons p rest ih =>
    obtain ⟨k1, v1⟩ := p
    have hne : k1 ≠ k := by
      intro hc
      exact h (by simp [hc])
    rw [upsert, if_neg hne, ih (fun hc => h (by simp [hc]))]
    simp

/-- Loading the stored form of a list of good pairs with fresh distinct
keys appends the pairs to the accumulator in order. -/
theorem loadGo_store (ascii : Bool) (l : List (List Nat × List Nat)) :
    ∀ acc : List (List Nat × List Nat),
    (∀ p ∈ l, goodStr p.1 ∧ goodStr p.2 ∧ p.2 ≠ [] ∧
      (ascii = true → p.2.headD 0 ≠ 9 ∧ p.2.headD 0 ≠ 12)) →
    (∀ p ∈ l, p.1 ∉ acc.map Prod.fst) →
    (l.map Prod.fst).Nodup →
    loadGo (store l ascii) acc = some (acc ++ l) := by
  induction l with
  | nil =>
    intro acc _ _ _
    rw [store]
    simp [loadGo_nil]
  | cons p pl ih =>
    intro acc hgood hdisj hnd
    obtain ⟨k, v⟩ := p
    obtain ⟨hgk, hgv, hvne, hA⟩ := hgood (k, v) (by simp)
    have hA2 : ascii = true → v.headD 0 ≠ 9 ∧ v.headD 0 ≠ 12 := hA
    obtain ⟨hLne, hLws, hL35, hL33, hLno, hLlast⟩ :=
      escape_line_shape ascii k v hgk hgv hvne
    obtain ⟨hkey, m, hval⟩ := line_unescape ascii k v hgk hgv hvne hA2
    have hst : store ((k, v) :: pl) ascii =
        escape k v ascii ++ 10 :: store pl ascii := by
      rw [store, List.flatMap_cons]
      rw [store]
      simp
    rw [hst, loadGo]
    rw [loadBytes_line (escape k v ascii) (store pl ascii) hLne hLws hL35
      hL33 hLno hLlast]
    dsimp only
    rw [if_pos ⟨hLne, hL35, hL33⟩]
    rw [hkey]
    dsimp only
    rw [hval]
    dsimp only
    rw [dif_neg (by simp)]
    rw [upsert_fresh acc k v (hdisj (k, v) (by simp))]
    have hnd' := hnd
    simp only [List.map_cons, List.nodup_cons] at hnd'
    have hk_notin : k ∉ pl.map Prod.fst := hnd'.1
    have hdisj2 : ∀ p ∈ pl, p.1 ∉ (acc ++ [(k, v)]).map Prod.fst := by
      intro p hp hc
      simp only [List.map_append, List.mem_append] at hc
      rcases hc with hc | hc
      · exact hdisj p (by simp [hp]) hc
      · simp only [List.map_cons, List.map_nil, List.mem_singleton] at hc
        exact hk_notin (hc ▸ List.mem_map_of_mem Prod.fst hp)
    rw [ih (acc ++ [(k, v)]) (fun p hp => hgood p (by simp [hp]))
      hdisj2 hnd'.2]
    simp

/-- Claim C2 (amended): storing then loading reproduces the pairs when the
keys and values are ASCII without backslashes, the keys are distinct, each
value is nonempty, and in ascii mode no value starts with a tab or
form-feed byte. -/
theorem c2_round_trip_good_pairs (ascii : Bool)
    (l : List (List Nat × List Nat))
    (hgood : ∀ p ∈ l, goodStr p.1 ∧ goodStr p.2 ∧ p.2 ≠ [] ∧
      (ascii = true → p.2.headD 0 ≠ 9 ∧ p.2.headD 0 ≠ 12))
    (hnd : (l.map Prod.fst).Nodup) :
    loadStr (store l ascii) = some l := by
  rw [loadStr]
  simpa using loadGo_store ascii l [] hgood (fun p _ => by simp) hnd

theorem c2_round_trip_good_pairs_witness :
    loadStr (store [([107], [118]), ([97, 98], [32, 99])] true) =
      some [([107], [118]), ([97, 98], [32, 99])] :=
  c2_round_trip_good_pairs true [([107], [118]), ([97, 98], [32, 99])]
    (by simp only [goodStr]; decide) (by decide)

/-- Claim C2 as stated is false: the pair `("k", "")` has ASCII-only key
and value, but its stored line `k=` panics on load (the empty value drives
the split-skip loop of `unescape` past the end of the input), so loading
does not reproduce the pair. -/
theorem c2_counterexample_empty_value :
    loadStr (store [([107], [])] false) = none := by
  simp [loadStr, loadGo, loadBytesGo, skipWs, scanBody, crHandle, unescape,
    unescapeGo, unescapeRune, utf8DecodeRune, utf8EncodeRune, hexScan,
    hexVal, skipRun, upsert, store, escape, stringRunes, escapeOneKey,
    escapeOneVal, escapeRune, hexDigitGo, hex4, isSpace, isDelimiter,
    isCommentPre, utf16IsSurrogate, runeError]

end Props
